/-
Verification of the NER sequence-labeling core (ner-core) against its
specification.  The Rust source is shallowly embedded in Lean 4:

* `f64` values are modelled by exact rationals `ℚ` (the claims under
  scrutiny concern the algebraic structure of the computations, and the
  source performs only +, -, *, / on these values); `f64::NEG_INFINITY`
  is modelled by `⊥ : WithBot ℚ` where it can actually flow through a
  computation, and is noted in a comment where it is unreachable.
* `HashMap` weight tables that the source always reads with
  `.get(k).unwrap_or(&0.0)` are modelled as total functions with
  default `0`; their key sets, where the source iterates over them, are
  tracked explicitly.
* fallible parsing returns `Option`.

Every definition mirrors a specific Rust item of ner-core and is named
after it.
-/

import Mathlib

set_option maxHeartbeats 1000000

namespace Ner

/-! ## Tag data model — src/ner-core/src/tagger.rs -/

/-- `EntityCategory` (tagger.rs): the four entity categories. -/
inductive EntityCategory where
  | Per
  | Org
  | Loc
  | Misc
deriving DecidableEq, Repr, Fintype

/-- `EntityCategory::name` (tagger.rs). -/
def EntityCategory.name : EntityCategory → String
  | .Per => "PER"
  | .Org => "ORG"
  | .Loc => "LOC"
  | .Misc => "MISC"

/-- `EntityCategory::from_str` (tagger.rs). -/
def EntityCategory.fromStr (s : String) : Option EntityCategory :=
  if s = "PER" then some .Per
  else if s = "ORG" then some .Org
  else if s = "LOC" then some .Loc
  else if s = "MISC" then some .Misc
  else none

/-- `Tag` (tagger.rs): BIO tag applied to a token. -/
inductive Tag where
  | Begin (cat : EntityCategory)
  | Inside (cat : EntityCategory)
  | Outside
deriving DecidableEq, Repr, Fintype

/-- `Tag::label` (tagger.rs): textual form `"B-PER"`, `"I-ORG"`, `"O"`. -/
def Tag.label : Tag → String
  | .Begin cat => "B-" ++ cat.name
  | .Inside cat => "I-" ++ cat.name
  | .Outside => "O"

/-- `Tag::index` (tagger.rs): numeric index 0..8 for Viterbi matrices. -/
def Tag.index : Tag → ℕ
  | .Outside => 0
  | .Begin .Per => 1
  | .Inside .Per => 2
  | .Begin .Org => 3
  | .Inside .Org => 4
  | .Begin .Loc => 5
  | .Inside .Loc => 6
  | .Begin .Misc => 7
  | .Inside .Misc => 8

/-- `Tag::all` (tagger.rs): all nine tags in index order. -/
def Tag.all : List Tag :=
  [.Outside,
   .Begin .Per, .Inside .Per,
   .Begin .Org, .Inside .Org,
   .Begin .Loc, .Inside .Loc,
   .Begin .Misc, .Inside .Misc]

/-- `Tag::is_valid_transition` (tagger.rs): `I-X` may only follow `B-X`
or `I-X` of the same category; every other transition is valid. -/
def Tag.isValidTransition (prev next : Tag) : Bool :=
  match next with
  | .Inside cat =>
    match prev with
    | .Begin prevCat => prevCat = cat
    | .Inside prevCat => prevCat = cat
    | _ => false
  | _ => true

/-- `Tag::from_label` (tagger.rs).  The Rust code special-cases `"O"`,
then applies `splitn(2, '-')` — i.e. it splits at the FIRST `'-'` only —
and requires exactly two parts, the first being `"B"` or `"I"`. -/
def Tag.fromLabel (s : String) : Option Tag :=
  if s = "O" then some .Outside
  else
    -- splitn(2, '-') on the character list: `before` is everything up to
    -- the first '-', `after` the remainder (absent when there is no '-').
    let before := s.toList.takeWhile (fun c => c ≠ '-')
    let after := s.toList.dropWhile (fun c => c ≠ '-')
    match after with
    | [] => none  -- parts.len() == 1 ≠ 2
    | _ :: rest =>
      match EntityCategory.fromStr (String.mk rest) with
      | none => none
      | some cat =>
        if String.mk before = "B" then some (.Begin cat)
        else if String.mk before = "I" then some (.Inside cat)
        else none

/-! ## Softmax confidence — `scores_to_probs`, src/ner-core/src/viterbi.rs

`f64` arithmetic is modelled over `ℚ`; the transcendental `exp` is kept
abstract as a parameter `e : ℚ → ℚ` standing for `f64::exp`, about which
the theorems assume only what is true of the real exponential
(strict positivity).  The claims proved here hold for every such `e`. -/

/-- `scores_to_probs` (viterbi.rs): numerically-stable softmax.  The Rust
code folds `f64::max` starting from `NEG_INFINITY`; on the non-empty list
reaching that fold this equals a fold started at the first element, which
is how it is written here (the empty list returns earlier). -/
def scoresToProbs (e : ℚ → ℚ) (scores : List ℚ) : List ℚ :=
  match scores with
  | [] => []
  | s0 :: srest =>
    let maxScore := srest.foldl max s0
    let exps := (s0 :: srest).map (fun s => e (s - maxScore))
    let sum := exps.foldl (· + ·) 0
    if sum = 0 then
      List.replicate (s0 :: srest).length ((1 : ℚ) / (s0 :: srest).length)
    else
      exps.map (fun x => x / sum)

/-! ### C5 and C6 -/

/-- C5: for every `Tag` value, parsing its canonical label yields the
same tag back: `Tag.fromLabel (tag.label) = some tag`, the labels being
exactly `"O"`, `"B-<CAT>"`, `"I-<CAT>"`. -/
theorem tag_label_roundtrip : ∀ t : Tag, Tag.fromLabel t.label = some t := by
  decide

/-- C6: `is_valid_transition prev next` is `false` exactly when `next`
is `Inside c` and `prev` is neither `Begin c` nor `Inside c`; in
particular it is false for `(Outside, Inside Per)` and
`(Begin Org, Inside Per)`, and true for `(Begin Per, Inside Per)`. -/
theorem is_valid_transition_spec :
    (∀ prev next : Tag,
      Tag.isValidTransition prev next = false ↔
        ∃ c, next = Tag.Inside c ∧ prev ≠ Tag.Begin c ∧ prev ≠ Tag.Inside c) ∧
    Tag.isValidTransition Tag.Outside (Tag.Inside .Per) = false ∧
    Tag.isValidTransition (Tag.Begin .Org) (Tag.Inside .Per) = false ∧
    Tag.isValidTransition (Tag.Begin .Per) (Tag.Inside .Per) = true := by
  refine ⟨?_, by decide, by decide, by decide⟩
  decide

/-! ### C9 -/

theorem foldl_add_eq_sum (l : List ℚ) (a : ℚ) : l.foldl (· + ·) a = a + l.sum := by
  induction l generalizing a with
  | nil => simp
  | cons x xs ih => simp [List.foldl_cons, ih (a + x), add_assoc]

theorem sum_map_div (l : List ℚ) (d : ℚ) : (l.map (fun x => x / d)).sum = l.sum / d := by
  induction l with
  | nil => simp
  | cons x xs ih => simp [ih, add_div]

theorem sum_pos_of_mem_pos (l : List ℚ) (hl : l ≠ []) (h : ∀ x ∈ l, 0 < x) :
    0 < l.sum := by
  induction l with
  | nil => exact absurd rfl hl
  | cons x xs ih =>
    rcases xs with - | ⟨y, ys⟩
    · simpa using h x (by simp)
    · have h1 : 0 < x := h x (by simp)
      have h2 : 0 < (y :: ys).sum := by
        refine ih (by simp) ?_
        intro z hz; exact h z (by simp [hz])
      simpa using add_pos h1 h2

theorem foldl_max_const (c : ℚ) : ∀ l : List ℚ, (∀ x ∈ l, x = c) → l.foldl max c = c := by
  intro l
  induction l with
  | nil => simp
  | cons x xs ih =>
    intro h
    have hx : x = c := h x (by simp)
    simp only [List.foldl_cons, hx, max_self]
    exact ih (fun z hz => h z (by simp [hz]))

/-- C9: for every positive `exp` function (as the real `f64::exp` is) and
every non-empty score vector, `scores_to_probs` returns a vector of the
same length whose entries sum to exactly `1` in the exact-rational model —
in particular the sum is within `1e-9` of `1.0` — and when all scores are
equal it returns the uniform distribution `1/n` without dividing by zero
(the sum of exponentials is strictly positive, so the division is by a
non-zero quantity and the zero-sum fallback branch is not even reached). -/
theorem scores_to_probs_normalized (e : ℚ → ℚ) (he : ∀ x, 0 < e x)
    (scores : List ℚ) (hne : scores ≠ []) :
    (scoresToProbs e scores).length = scores.length ∧
    (scoresToProbs e scores).sum = 1 ∧
    |(scoresToProbs e scores).sum - 1| ≤ 1 / 10 ^ 9 ∧
    ∀ c, (∀ s ∈ scores, s = c) →
      scoresToProbs e scores = List.replicate scores.length ((1 : ℚ) / scores.length) := by
  rcases scores with - | ⟨s0, srest⟩
  · exact absurd rfl hne
  have hsumpos : 0 < (((s0 :: srest).map
      (fun s => e (s - srest.foldl max s0))).foldl (· + ·) 0) := by
    rw [foldl_add_eq_sum, zero_add]
    refine sum_pos_of_mem_pos _ (by simp) ?_
    intro x hx
    rcases List.mem_map.mp hx with ⟨s, _, rfl⟩
    exact he _
  have hsumne : (((s0 :: srest).map
      (fun s => e (s - srest.foldl max s0))).foldl (· + ·) 0) ≠ 0 := ne_of_gt hsumpos
  have hval : scoresToProbs e (s0 :: srest) =
      ((s0 :: srest).map (fun s => e (s - srest.foldl max s0))).map
        (fun x => x / (((s0 :: srest).map
          (fun s => e (s - srest.foldl max s0))).foldl (· + ·) 0)) := by
    simp only [scoresToProbs, if_neg hsumne]
  have hlen : (scoresToProbs e (s0 :: srest)).length = (s0 :: srest).length := by
    rw [hval]; simp
  have hsum1 : (scoresToProbs e (s0 :: srest)).sum = 1 := by
    rw [hval, sum_map_div, foldl_add_eq_sum, zero_add, div_self]
    rw [foldl_add_eq_sum, zero_add] at hsumne
    exact hsumne
  refine ⟨hlen, hsum1, by rw [hsum1]; norm_num, ?_⟩
  intro c hc
  have hmax : srest.foldl max s0 = c := by
    have hs0 : s0 = c := hc s0 (by simp)
    rw [hs0]
    exact foldl_max_const c srest (fun z hz => hc z (by simp [hz]))
  have hexps : (s0 :: srest).map (fun s => e (s - srest.foldl max s0)) =
      List.replicate (s0 :: srest).length (e 0) := by
    rw [List.eq_replicate_iff]
    refine ⟨by simp, ?_⟩
    intro x hx
    rcases List.mem_map.mp hx with ⟨s, hs, rfl⟩
    rw [hmax, hc s hs, sub_self]
  rw [hval, hexps]
  have hsumrep : (List.replicate (s0 :: srest).length (e 0)).foldl (· + ·) 0 =
      ((s0 :: srest).length : ℚ) * e 0 := by
    rw [foldl_add_eq_sum, zero_add, List.sum_replicate, nsmul_eq_mul]
  rw [hsumrep, List.map_replicate]
  congr 1
  rw [div_mul_eq_div_div_swap, div_self (ne_of_gt (he 0))]

/-- C9 witness: the theorem applied at the concrete positive function
`fun _ => 1` and score vector `[3, 1]`. -/
theorem scores_to_probs_normalized_witness :
    (scoresToProbs (fun _ => (1 : ℚ)) [3, 1]).length = 2 ∧
    (scoresToProbs (fun _ => (1 : ℚ)) [3, 1]).sum = 1 := by
  have h := scores_to_probs_normalized (fun _ => (1 : ℚ)) (fun _ => one_pos) [3, 1]
    (by decide)
  exact ⟨by simpa using h.1, h.2.1⟩

/-! ## Tokens, tagged tokens and entity spans — tagger.rs / tokenizer.rs -/

/-- `Token` (tokenizer.rs): text with byte offsets and 0-based position.
The Rust field `end` is a Lean keyword and is rendered `end_`. -/
structure Token where
  text : String
  start : ℕ
  end_ : ℕ
  index : ℕ
deriving DecidableEq, Repr

/-- `TaggedToken` (tagger.rs): token, BIO tag, confidence (f64 → ℚ). -/
structure TaggedToken where
  token : Token
  tag : Tag
  confidence : ℚ
deriving DecidableEq, Repr

/-- `EntitySpan` (tagger.rs).  The Rust field `end` is rendered `end_`. -/
structure EntitySpan where
  text : String
  category : EntityCategory
  start_token : ℕ
  end_token : ℕ
  start : ℕ
  end_ : ℕ
  confidence : ℚ
  source : String
deriving DecidableEq, Repr

/-- `tokens_to_spans` (tagger.rs): left-to-right scan turning BIO-tagged
tokens into entity spans.  A `Begin cat` opens a span, the inner `while`
absorbs the immediately following `Inside cat` tokens of the same
category, and the scan resumes right after them (`i = j`).

The Rust code computes the span text as
`original_text[start_byte..end_byte].trim().to_string()`; byte slicing +
trimming of the original text is abstracted as the parameter `sliceTrim`
(the claims checked here do not constrain the `text` field). -/
def tokensToSpans (sliceTrim : ℕ → ℕ → String) : List TaggedToken → List EntitySpan
  | [] => []
  | t :: rest =>
    match t.tag with
    | Tag.Begin cat =>
      let inside := rest.takeWhile (fun x => decide (x.tag = Tag.Inside cat))
      let restAfter := rest.dropWhile (fun x => decide (x.tag = Tag.Inside cat))
      let lastTok := inside.getLast?.getD t
      { text := sliceTrim t.token.start lastTok.token.end_
        category := cat
        start_token := t.token.index
        end_token := lastTok.token.index
        start := t.token.start
        end_ := lastTok.token.end_
        confidence := (t.confidence + (inside.map (·.confidence)).sum) /
          ((1 : ℚ) + inside.length)
        source := "crf" } :: tokensToSpans sliceTrim restAfter
    | _ => tokensToSpans sliceTrim rest
termination_by l => l.length
decreasing_by
  · simp only [List.length_cons]
    exact Nat.lt_succ_of_le (List.dropWhile_sublist _).length_le
  · simp

/-! ### C4 and C10 -/

theorem head_dropWhile_not_mem {α : Type} (p : α → Bool) (l : List α) (y : α)
    (h : (l.dropWhile p).head? = some y) : p y = false := by
  have h2 := List.head?_dropWhile_not p l
  rw [h] at h2
  exact h2

/-- Structure of every span produced by `tokens_to_spans`: it comes from a
contiguous block `t :: grp` of the input, opened by a `Begin cat` token,
whose tail consists of `Inside cat` tokens, maximal (the suffix does not
start with another `Inside cat`), with the extent fields taken from the
first and last token of the block and the confidence being the mean of
the block's confidences. -/
theorem tokensToSpans_structure (sliceTrim : ℕ → ℕ → String) (l : List TaggedToken) :
    ∀ s ∈ tokensToSpans sliceTrim l,
      ∃ pre t grp post cat,
        l = pre ++ (t :: grp) ++ post ∧
        t.tag = Tag.Begin cat ∧
        s.category = cat ∧
        (∀ x ∈ grp, x.tag = Tag.Inside cat) ∧
        (∀ y, post.head? = some y → y.tag ≠ Tag.Inside cat) ∧
        s.start_token = t.token.index ∧
        s.end_token = (grp.getLast?.getD t).token.index ∧
        s.confidence = ((t :: grp).map (·.confidence)).sum / ((t :: grp).length : ℚ) := by
  induction l using tokensToSpans.induct sliceTrim with
  | case1 => intro s hs; simp [tokensToSpans] at hs
  | case2 t rest cat htag restAfter ih =>
    intro s hs
    simp only [tokensToSpans, htag] at hs
    rcases List.mem_cons.mp hs with hs | hs
    · subst hs
      refine ⟨[], t, rest.takeWhile (fun x => decide (x.tag = Tag.Inside cat)),
        rest.dropWhile (fun x => decide (x.tag = Tag.Inside cat)), cat, ?_, htag, rfl,
        ?_, ?_, rfl, rfl, ?_⟩
      · simp [List.takeWhile_append_dropWhile]
      · intro x hx
        have := List.mem_takeWhile_imp hx
        simpa using this
      · intro y hy
        have := head_dropWhile_not_mem _ _ _ hy
        simpa using this
      · simp only [List.map_cons, List.sum_cons, List.length_cons]
        push_cast
        ring_nf
    · rcases ih s hs with ⟨pre, t2, grp, post, cat2, hdec, h1, h2, h3, h4, h5, h6, h7⟩
      refine ⟨t :: (rest.takeWhile (fun x => decide (x.tag = Tag.Inside cat)) ++ pre),
        t2, grp, post, cat2, ?_, h1, h2, h3, h4, h5, h6, h7⟩
      have hsplit := List.takeWhile_append_dropWhile
        (p := fun x => decide (x.tag = Tag.Inside cat)) (l := rest)
      conv_lhs => rw [← hsplit]
      rw [show rest.dropWhile (fun x => decide (x.tag = Tag.Inside cat)) =
        pre ++ t2 :: grp ++ post from hdec]
      simp
  | case3 t rest hnb ih =>
    intro s hs
    have hrw : tokensToSpans sliceTrim (t :: rest) = tokensToSpans sliceTrim rest := by
      rcases h : t.tag with cat | cat | _
      · exact (hnb cat h).elim
      · simp [tokensToSpans, h]
      · simp [tokensToSpans, h]
    rw [hrw] at hs
    rcases ih s hs with ⟨pre, t2, grp, post, cat2, hdec, h1, h2, h3, h4, h5, h6, h7⟩
    exact ⟨t :: pre, t2, grp, post, cat2, by rw [hdec]; simp, h1, h2, h3, h4, h5, h6, h7⟩

/-- C4: `tokens_to_spans` is the left-to-right BIO fold: every produced
span arises from a `Begin c` token plus the maximal run of immediately
following `Inside c` tokens of the same category, the span's confidence
being the arithmetic mean of its tokens' confidences; and the tag
sequence `[O, B-PER, I-PER, O, B-LOC]` over five tokens yields exactly
two spans, one `PER` covering tokens 1–2 (confidence the mean of the two)
and one `LOC` covering token 4. -/
theorem tokens_to_spans_fold_spec :
    (∀ (sliceTrim : ℕ → ℕ → String) (l : List TaggedToken),
      ∀ s ∈ tokensToSpans sliceTrim l,
        ∃ pre t grp post cat,
          l = pre ++ (t :: grp) ++ post ∧
          t.tag = Tag.Begin cat ∧
          s.category = cat ∧
          (∀ x ∈ grp, x.tag = Tag.Inside cat) ∧
          (∀ y, post.head? = some y → y.tag ≠ Tag.Inside cat) ∧
          s.start_token = t.token.index ∧
          s.end_token = (grp.getLast?.getD t).token.index ∧
          s.confidence = ((t :: grp).map (·.confidence)).sum / ((t :: grp).length : ℚ)) ∧
    (∀ (sliceTrim : ℕ → ℕ → String) (st en : ℕ → ℕ) (txt : ℕ → String) (c : ℕ → ℚ),
      tokensToSpans sliceTrim
        [⟨⟨txt 0, st 0, en 0, 0⟩, Tag.Outside, c 0⟩,
         ⟨⟨txt 1, st 1, en 1, 1⟩, Tag.Begin .Per, c 1⟩,
         ⟨⟨txt 2, st 2, en 2, 2⟩, Tag.Inside .Per, c 2⟩,
         ⟨⟨txt 3, st 3, en 3, 3⟩, Tag.Outside, c 3⟩,
         ⟨⟨txt 4, st 4, en 4, 4⟩, Tag.Begin .Loc, c 4⟩] =
        [⟨sliceTrim (st 1) (en 2), .Per, 1, 2, st 1, en 2, (c 1 + c 2) / 2, "crf"⟩,
         ⟨sliceTrim (st 4) (en 4), .Loc, 4, 4, st 4, en 4, c 4, "crf"⟩]) := by
  refine ⟨tokensToSpans_structure, ?_⟩
  intro sliceTrim st en txt c
  simp [tokensToSpans]
  norm_num

/-- C4 witness: the structure statement instantiated at the concrete
input `[B-PER]` (confidence 9/10) and its produced span. -/
theorem tokens_to_spans_fold_spec_witness :
    ∃ pre t grp post cat,
      ([⟨⟨"x", 0, 1, 0⟩, Tag.Begin .Per, (9 : ℚ)/10⟩] : List TaggedToken) =
        pre ++ (t :: grp) ++ post ∧
      t.tag = Tag.Begin cat ∧
      (⟨"", .Per, 0, 0, 0, 1, (9 : ℚ)/10, "crf"⟩ : EntitySpan).category = cat ∧
      (∀ x ∈ grp, x.tag = Tag.Inside cat) ∧
      (∀ y, post.head? = some y → y.tag ≠ Tag.Inside cat) ∧
      (⟨"", .Per, 0, 0, 0, 1, (9 : ℚ)/10, "crf"⟩ : EntitySpan).start_token = t.token.index ∧
      (⟨"", .Per, 0, 0, 0, 1, (9 : ℚ)/10, "crf"⟩ : EntitySpan).end_token =
        (grp.getLast?.getD t).token.index ∧
      (⟨"", .Per, 0, 0, 0, 1, (9 : ℚ)/10, "crf"⟩ : EntitySpan).confidence =
        ((t :: grp).map (·.confidence)).sum / ((t :: grp).length : ℚ) :=
  tokens_to_spans_fold_spec.1 (fun _ _ => "")
    [⟨⟨"x", 0, 1, 0⟩, Tag.Begin .Per, (9 : ℚ)/10⟩]
    ⟨"", .Per, 0, 0, 0, 1, (9 : ℚ)/10, "crf"⟩
    (by simp [tokensToSpans])

theorem tokensToSpans_ordered_aux (sliceTrim : ℕ → ℕ → String) (l : List TaggedToken)
    (hmono : List.Pairwise (fun a b : TaggedToken => a.token.index < b.token.index) l) :
    (∀ s ∈ tokensToSpans sliceTrim l,
      s.start_token ≤ s.end_token ∧
      s.start_token ∈ l.map (·.token.index) ∧
      s.end_token ∈ l.map (·.token.index)) ∧
    List.Pairwise (fun a b : EntitySpan => a.end_token < b.start_token)
      (tokensToSpans sliceTrim l) := by
  induction l using tokensToSpans.induct sliceTrim with
  | case1 => simp [tokensToSpans]
  | case2 t rest cat htag restAfter ih =>
    have hmonoRest : List.Pairwise (fun a b : TaggedToken => a.token.index < b.token.index) rest :=
      (List.pairwise_cons.mp hmono).2
    have hheadlt : ∀ x ∈ rest, t.token.index < x.token.index :=
      (List.pairwise_cons.mp hmono).1
    have hmonoAfter : List.Pairwise (fun a b : TaggedToken => a.token.index < b.token.index)
        (rest.dropWhile (fun x => decide (x.tag = Tag.Inside cat))) :=
      List.Pairwise.sublist (List.dropWhile_sublist _) hmonoRest
    rcases ih hmonoAfter with ⟨ih1, ih2⟩
    have hlastmem :
        (rest.takeWhile (fun x => decide (x.tag = Tag.Inside cat))).getLast?.getD t = t ∨
        (rest.takeWhile (fun x => decide (x.tag = Tag.Inside cat))).getLast?.getD t ∈
          rest.takeWhile (fun x => decide (x.tag = Tag.Inside cat)) := by
      rcases hgl : (rest.takeWhile (fun x => decide (x.tag = Tag.Inside cat))).getLast? with - | x
      · left; rw [hgl]; rfl
      · right; rw [hgl]; exact List.mem_of_mem_getLast? hgl
    have hrest_split : rest = rest.takeWhile (fun x => decide (x.tag = Tag.Inside cat)) ++
        rest.dropWhile (fun x => decide (x.tag = Tag.Inside cat)) :=
      (List.takeWhile_append_dropWhile ..).symm
    have hsep : ∀ a : TaggedToken,
        (a = t ∨ a ∈ rest.takeWhile (fun x => decide (x.tag = Tag.Inside cat))) →
        ∀ b ∈ rest.dropWhile (fun x => decide (x.tag = Tag.Inside cat)),
          a.token.index < b.token.index := by
      intro a ha b hb
      have hbrest : b ∈ rest := (List.dropWhile_sublist _).subset hb
      rcases ha with rfl | ha
      · exact hheadlt b hbrest
      · have h2 := (List.pairwise_append.mp (hrest_split ▸ hmonoRest)).2.2
        exact h2 a ha b hb
    have hltlast : t.token.index ≤
        ((rest.takeWhile (fun x => decide (x.tag = Tag.Inside cat))).getLast?.getD t).token.index := by
      rcases hlastmem with h | h
      · rw [h]
      · exact le_of_lt (hheadlt _ ((List.takeWhile_sublist _).subset h))
    constructor
    · intro s hs
      simp only [tokensToSpans, htag] at hs
      rcases List.mem_cons.mp hs with rfl | hs
      · refine ⟨hltlast, by simp, ?_⟩
        rcases hlastmem with h | h
        · rw [h]; simp
        · have hmem : (rest.takeWhile (fun x => decide (x.tag = Tag.Inside cat))).getLast?.getD t
              ∈ rest := (List.takeWhile_sublist _).subset h
          simp only [List.map_cons, List.mem_cons]
          right
          exact List.mem_map_of_mem _ hmem
      · rcases ih1 s hs with ⟨ha, hb, hc⟩
        have hsub : (rest.dropWhile (fun x => decide (x.tag = Tag.Inside cat))).map
            (·.token.index) ⊆ (t :: rest).map (·.token.index) := by
          intro z hz
          rcases List.mem_map.mp hz with ⟨x, hx, rfl⟩
          have hxr : x ∈ rest := (List.dropWhile_sublist _).subset hx
          exact List.mem_map_of_mem _ (by simp [hxr])
        exact ⟨ha, hsub hb, hsub hc⟩
    · simp only [tokensToSpans, htag]
      rw [List.pairwise_cons]
      refine ⟨?_, ih2⟩
      intro s hs
      rcases ih1 s hs with ⟨-, hb, -⟩
      rcases List.mem_map.mp hb with ⟨x, hx, hxeq⟩
      have hlt := hsep _ hlastmem x hx
      simpa [hxeq] using hlt
  | case3 t rest hnb ih =>
    have hmonoRest : List.Pairwise (fun a b : TaggedToken => a.token.index < b.token.index) rest :=
      (List.pairwise_cons.mp hmono).2
    rcases ih hmonoRest with ⟨ih1, ih2⟩
    have hrw : tokensToSpans sliceTrim (t :: rest) = tokensToSpans sliceTrim rest := by
      rcases h : t.tag with cat | cat | _
      · exact (hnb cat h).elim
      · simp [tokensToSpans, h]
      · simp [tokensToSpans, h]
    rw [hrw]
    refine ⟨?_, ih2⟩
    intro s hs
    rcases ih1 s hs with ⟨ha, hb, hc⟩
    have hsub : rest.map (·.token.index) ⊆ (t :: rest).map (·.token.index) := by
      intro z hz; simp only [List.map_cons, List.mem_cons]; right; exact hz
    exact ⟨ha, hsub hb, hsub hc⟩

/-- C10 counterexample: on an input whose token `index` fields are not
increasing (indices 5, then 1) — nothing in `tokens_to_spans` forbids
this — the two produced spans are listed with `start_token`s 5 then 1,
so the second span's `start_token` is NOT greater than the first span's
`end_token`: the claim is false for arbitrary inputs. -/
theorem tokens_to_spans_order_counterexample :
    (tokensToSpans (fun _ _ => "")
        [⟨⟨"a", 0, 1, 5⟩, Tag.Begin .Per, 1⟩, ⟨⟨"b", 1, 2, 1⟩, Tag.Begin .Loc, 1⟩]).map
      (fun s => (s.start_token, s.end_token)) = [(5, 5), (1, 1)] ∧
    ¬ List.Pairwise (fun a b : EntitySpan => a.end_token < b.start_token)
      (tokensToSpans (fun _ _ => "")
        [⟨⟨"a", 0, 1, 5⟩, Tag.Begin .Per, 1⟩, ⟨⟨"b", 1, 2, 1⟩, Tag.Begin .Loc, 1⟩]) := by
  have hout : tokensToSpans (fun _ _ => "")
      [⟨⟨"a", 0, 1, 5⟩, Tag.Begin .Per, 1⟩, ⟨⟨"b", 1, 2, 1⟩, Tag.Begin .Loc, 1⟩] =
      [⟨"", .Per, 5, 5, 0, 1, 1, "crf"⟩, ⟨"", .Loc, 1, 1, 1, 2, 1, "crf"⟩] := by
    simp [tokensToSpans]
  rw [hout]
  constructor
  · simp
  · intro h
    rcases List.pairwise_cons.mp h with ⟨h1, -⟩
    have := h1 ⟨"", .Loc, 1, 1, 1, 2, 1, "crf"⟩ (by simp)
    simp at this

/-- C10 (amended): for every input whose token `index` fields are
strictly increasing along the sequence — as holds for tokenizer output,
where `index` is the 0-based position — the spans returned by
`tokens_to_spans` each satisfy `start_token ≤ end_token` and are pairwise
strictly ordered (`end_token` of an earlier span is below `start_token`
of every later one), hence pairwise disjoint: each token index is
covered by at most one span, and spans appear in increasing token
order. -/
theorem tokens_to_spans_disjoint_ordered (sliceTrim : ℕ → ℕ → String)
    (l : List TaggedToken)
    (hmono : List.Pairwise (fun a b : TaggedToken => a.token.index < b.token.index) l) :
    (∀ s ∈ tokensToSpans sliceTrim l, s.start_token ≤ s.end_token) ∧
    List.Pairwise (fun a b : EntitySpan => a.end_token < b.start_token)
      (tokensToSpans sliceTrim l) := by
  rcases tokensToSpans_ordered_aux sliceTrim l hmono with ⟨h1, h2⟩
  exact ⟨fun s hs => (h1 s hs).1, h2⟩

/-- C10 witness: the amended statement applied at a concrete three-token
input with increasing indices producing two spans. -/
theorem tokens_to_spans_disjoint_ordered_witness :
    (∀ s ∈ tokensToSpans (fun _ _ => "")
        [⟨⟨"a", 0, 1, 0⟩, Tag.Begin .Per, 1⟩, ⟨⟨"b", 1, 2, 1⟩, Tag.Inside .Per, 1⟩,
         ⟨⟨"c", 2, 3, 2⟩, Tag.Begin .Loc, 1⟩],
      s.start_token ≤ s.end_token) ∧
    List.Pairwise (fun a b : EntitySpan => a.end_token < b.start_token)
      (tokensToSpans (fun _ _ => "")
        [⟨⟨"a", 0, 1, 0⟩, Tag.Begin .Per, 1⟩, ⟨⟨"b", 1, 2, 1⟩, Tag.Inside .Per, 1⟩,
         ⟨⟨"c", 2, 3, 2⟩, Tag.Begin .Loc, 2⟩]) := by
  constructor
  · exact (tokens_to_spans_disjoint_ordered (fun _ _ => "") _ (by decide)).1
  · exact (tokens_to_spans_disjoint_ordered (fun _ _ => "") _ (by decide)).2

/-! ## CRF model and Viterbi decoder — src/ner-core/src/crf.rs, viterbi.rs -/

/-- `FeatureVector` (features.rs): sparse feature map for one token.  The
`HashMap<String, f64>`'s entries are modelled as an association list; all
consumers only sum over the entries, so entry order is irrelevant. -/
structure FeatureVector where
  features : List (String × ℚ)
  token_index : ℕ

/-- `CrfModel` (crf.rs).  `emission_weights` is the
`HashMap<String, f64>` keyed `"{feat}|{label}"`, always read through
`.get(..).unwrap_or(&0.0)`, hence a total function with default `0`;
`transition_weights` is the dense `|Tag|×|Tag|` matrix
`Vec<Vec<f64>>` indexed by `Tag::index`, as a function on indices. -/
structure CrfModel where
  emission_weights : String → ℚ
  transition_weights : ℕ → ℕ → ℚ

/-- `CrfModel::emission_score` (crf.rs): Σ over active features of
`feat_val * emission_weights["{feat}|{label}"]`. -/
def CrfModel.emissionScore (m : CrfModel) (fv : FeatureVector) (tag : Tag) : ℚ :=
  (fv.features.map (fun p => p.2 * m.emission_weights (p.1 ++ "|" ++ tag.label))).sum

/-- `CrfModel::transition_score` (crf.rs): matrix lookup by tag index. -/
def CrfModel.transitionScore (m : CrfModel) (prev next : Tag) : ℚ :=
  m.transition_weights prev.index next.index

/-- `compute_emission_scores` (crf.rs): per token, per tag (in `Tag::all`
order) the emission score. -/
def computeEmissionScores (m : CrfModel) (fvs : List FeatureVector) : List (List ℚ) :=
  fvs.map (fun fv => Tag.all.map (m.emissionScore fv))

/-- The running-maximum fold of the Rust loops: scan `vs` (which sits at
offset `i` of the enclosing slice) keeping `acc` and replacing it by
`(i, v)` whenever `keep v acc.2` holds. -/
def maxFold (keep : ℚ → ℚ → Bool) : List ℚ → ℕ → ℕ × ℚ → ℕ × ℚ
  | [], _, acc => acc
  | v :: vs, i, acc => maxFold keep vs (i + 1) (if keep v acc.2 then (i, v) else acc)

/-- The inner Viterbi loop over previous tags (viterbi.rs, recursion
step): starts from `NEG_INFINITY` and replaces only on strictly greater,
so it keeps the FIRST maximum; on a non-empty list this equals starting
from the first element.  The `[]` case is unreachable (the list always
has the 9 per-tag candidate scores). -/
def maxFirstIdx : List ℚ → ℕ × ℚ
  | [] => (0, 0)
  | x :: xs => maxFold (fun v best => v > best) xs 1 (0, x)

/-- `best_in_slice` (viterbi.rs): Rust's `Iterator::max_by` keeps the
LAST of equally-maximal elements, i.e. replaces on `≥`.  The `[]` case
models `unwrap_or((0, NEG_INFINITY))` degenerately; it is unreachable
(the function is only applied to the 9-entry Viterbi row). -/
def maxLastIdx : List ℚ → ℕ × ℚ
  | [] => (0, 0)
  | x :: xs => maxFold (fun v best => v ≥ best) xs 1 (0, x)

/-- `tags[i]` of viterbi.rs: the tag with index `i` (default unreachable:
indices always come from `0..9`). -/
def tagOfIdx (i : ℕ) : Tag := Tag.all.getD i Tag.Outside

/-- `TagScore` (viterbi.rs): per-tag diagnostic record. -/
structure TagScore where
  tag : String
  score : ℚ
  best_prev : String
  emission : ℚ
  transition : ℚ

/-- `ViterbiStep` (viterbi.rs): per-token diagnostic record. -/
structure ViterbiStep where
  token_index : ℕ
  scores : List TagScore
  best_tag : String
  best_score : ℚ

/-- `ViterbiResult` (viterbi.rs). -/
structure ViterbiResult where
  best_sequence : List Tag
  best_score : ℚ
  steps : List ViterbiStep

/-- One cell `t` of the Viterbi recursion (viterbi.rs lines 128–160):
find the best previous tag by the first-maximum scan of
`viterbi[prev] + transition(prev, t)`, then add the emission score and
subtract `10.0` when the chosen transition is illegal in the BIO scheme.
Returns `(new_viterbi[t], backptr[t], best_transition)`. -/
def viterbiCell (m : CrfModel) (prevRow emRow : List ℚ) (t : ℕ) : ℚ × ℕ × ℚ :=
  let cands := (List.range 9).map
    (fun p => prevRow.getD p 0 + m.transitionScore (tagOfIdx p) (tagOfIdx t))
  let best := maxFirstIdx cands
  let tr := m.transitionScore (tagOfIdx best.1) (tagOfIdx t)
  let score := if Tag.isValidTransition (tagOfIdx best.1) (tagOfIdx t)
    then best.2 + emRow.getD t 0
    else best.2 + emRow.getD t 0 - 10
  (score, best.1, tr)

/-- One iteration of the outer Viterbi loop (viterbi.rs lines 123–172):
state is `(viterbi row, backpointer rows — most recent first, steps so
far, token index i)`.  The emission row for this token is the `i`-th row
of `compute_emission_scores`, i.e. `Tag.all.map (emissionScore fv)`. -/
def viterbiFoldStep (m : CrfModel) (st : List ℚ × List (List ℕ) × List ViterbiStep × ℕ)
    (fv : FeatureVector) : List ℚ × List (List ℕ) × List ViterbiStep × ℕ :=
  let emRow := Tag.all.map (m.emissionScore fv)
  let cells := (List.range 9).map (viterbiCell m st.1 emRow)
  let newRow := cells.map (·.1)
  let newBps := cells.map (·.2.1)
  let best := maxLastIdx newRow
  let stepScores := (List.range 9).map (fun t =>
    { tag := (tagOfIdx t).label
      score := newRow.getD t 0
      best_prev := (tagOfIdx (newBps.getD t 0)).label
      emission := emRow.getD t 0
      transition := (cells.getD t (0, 0, 0)).2.2 : TagScore })
  (newRow, newBps :: st.2.1,
   st.2.2.1 ++ [{ token_index := st.2.2.2, scores := stepScores,
                  best_tag := (tagOfIdx best.1).label, best_score := best.2 }],
   st.2.2.2 + 1)

/-- The backtracking loop (viterbi.rs lines 174–182) over the
backpointer rows for tokens `1..n-1`, most recent first (the row for
token 0 is self-pointing and never read): the chain of tag indices of
the reconstructed path, ending in `t`. -/
def btRev : List (List ℕ) → ℕ → List ℕ
  | [], t => [t]
  | b :: rest, t => btRev rest (b.getD t 0) ++ [t]

/-- `viterbi_decode` (viterbi.rs): early return on empty input;
otherwise initialization with the emission row of token 0, the fold over
the remaining tokens, final `best_in_slice` and backtracking. -/
def viterbiDecode (m : CrfModel) (fvs : List FeatureVector) : ViterbiResult :=
  match fvs with
  | [] => { best_sequence := [], best_score := 0, steps := [] }
  | fv0 :: rest =>
    let row0 := Tag.all.map (m.emissionScore fv0)
    let best0 := maxLastIdx row0
    let step0 : ViterbiStep :=
      { token_index := 0
        scores := (List.range 9).map (fun t =>
          { tag := (tagOfIdx t).label, score := row0.getD t 0,
            best_prev := (tagOfIdx t).label, emission := row0.getD t 0, transition := 0 })
        best_tag := (tagOfIdx best0.1).label
        best_score := best0.2 }
    let final := rest.foldl (viterbiFoldStep m) (row0, [], [step0], 1)
    let bestLast := maxLastIdx final.1
    { best_sequence := (btRev final.2.1 bestLast.1).map tagOfIdx
      best_score := bestLast.2
      steps := final.2.2.1 }

/-- Raw (unpenalized) score of a tag sequence against the features:
transition into each tag after the first, plus emission at each tag. -/
def seqScoreAux (m : CrfModel) (prev : Tag) : List FeatureVector → List Tag → ℚ
  | fv :: fvs, t :: ts =>
    m.transitionScore prev t + m.emissionScore fv t + seqScoreAux m t fvs ts
  | _, _ => 0

/-- Raw path score `Σ_i emission(fv_i, t_i) + Σ_i transition(t_{i-1}, t_i)`. -/
def seqRawScore (m : CrfModel) : List FeatureVector → List Tag → ℚ
  | fv :: fvs, t :: ts => m.emissionScore fv t + seqScoreAux m t fvs ts
  | _, _ => 0

/-- Number of BIO-illegal transitions inside a tag sequence, counting
from the given previous tag. -/
def illegalStepsFrom (prev : Tag) : List Tag → ℕ
  | t :: ts => (if Tag.isValidTransition prev t then 0 else 1) + illegalStepsFrom t ts
  | [] => 0

/-- Number of BIO-illegal adjacent transitions of a tag sequence. -/
def illegalCount : List Tag → ℕ
  | t :: ts => illegalStepsFrom t ts
  | [] => 0

/-! ### Helper lemmas for the Viterbi development -/


theorem getD_map_of_lt {α β : Type} (f : α → β) (l : List α) (n : ℕ) (h : n < l.length)
    (d : β) (d2 : α) : (l.map f).getD n d = f (l.getD n d2) := by
  induction l generalizing n with
  | nil => simp at h
  | cons x xs ih =>
    rcases n with - | n
    · rfl
    · simpa using ih n (by simpa using h) 

theorem getD_range_of_lt (k n : ℕ) (h : n < k) (d : ℕ) : (List.range k).getD n d = n := by
  simp [List.getD_eq_getElem?_getD, List.getElem?_range h]

theorem maxFold_spec (keep : ℚ → ℚ → Bool) (l : List ℚ) :
    ∀ (vs : List ℚ) (i : ℕ) (acc : ℕ × ℚ),
      vs = l.drop i → acc.1 < l.length → acc.2 = l.getD acc.1 0 →
      (maxFold keep vs i acc).1 < l.length ∧
      (maxFold keep vs i acc).2 = l.getD (maxFold keep vs i acc).1 0 := by
  intro vs
  induction vs with
  | nil => intro i acc hdrop h1 h2; exact ⟨h1, h2⟩
  | cons v vs ih =>
    intro i acc hdrop h1 h2
    have hi : i < l.length := by
      by_contra hge
      rw [List.drop_eq_nil_of_le (Nat.le_of_not_lt hge)] at hdrop
      exact absurd hdrop.symm (by simp)
    have hv : v = l.getD i 0 := by
      have := List.getD_eq_getElem?_getD l i 0
      rw [List.getElem?_eq_getElem hi] at this
      have hdg : (l.drop i).head? = some l[i] := by
        rw [List.head?_drop, List.getElem?_eq_getElem hi]
      rw [← hdrop] at hdg
      simp at hdg
      rw [this, hdg]
      simp
    have hdrop2 : vs = l.drop (i + 1) := by
      have h3 := List.drop_drop 1 i l
      rw [← hdrop] at h3
      simp at h3
      exact h3
    rcases hkeep : keep v acc.2 with - | -
    · simpa [maxFold, hkeep] using ih (i + 1) acc hdrop2 h1 h2
    · simpa [maxFold, hkeep] using ih (i + 1) (i, v) hdrop2 hi hv

theorem maxFirstIdx_spec (l : List ℚ) (h : l ≠ []) :
    (maxFirstIdx l).1 < l.length ∧ (maxFirstIdx l).2 = l.getD (maxFirstIdx l).1 0 := by
  rcases l with - | ⟨x, xs⟩
  · exact absurd rfl h
  · exact maxFold_spec _ (x :: xs) xs 1 (0, x) (by simp) (by simp) (by simp [List.getD])

theorem maxLastIdx_spec (l : List ℚ) (h : l ≠ []) :
    (maxLastIdx l).1 < l.length ∧ (maxLastIdx l).2 = l.getD (maxLastIdx l).1 0 := by
  rcases l with - | ⟨x, xs⟩
  · exact absurd rfl h
  · exact maxFold_spec _ (x :: xs) xs 1 (0, x) (by simp) (by simp) (by simp [List.getD])

theorem btRev_ends (bps : List (List ℕ)) (t : ℕ) : ∃ ys, btRev bps t = ys ++ [t] := by
  cases bps with
  | nil => exact ⟨[], rfl⟩
  | cons b rest => exact ⟨btRev rest (b.getD t 0), rfl⟩

theorem btRev_length (bps : List (List ℕ)) (t : ℕ) : (btRev bps t).length = bps.length + 1 := by
  induction bps generalizing t with
  | nil => rfl
  | cons b rest ih => simp [btRev, ih]


/-! ### C2 -/


theorem seqScoreAux_snoc (m : CrfModel) (fv : FeatureVector) (T : Tag) :
    ∀ (fvs : List FeatureVector) (ts : List Tag) (prev : Tag), ts.length = fvs.length →
      seqScoreAux m prev (fvs ++ [fv]) (ts ++ [T]) =
        seqScoreAux m prev fvs ts + m.transitionScore (ts.getLastD prev) T +
          m.emissionScore fv T := by
  intro fvs
  induction fvs with
  | nil =>
    intro ts prev hlen
    have : ts = [] := List.eq_nil_of_length_eq_zero (by simpa using hlen)
    subst this
    simp [seqScoreAux]
  | cons f fs ih =>
    intro ts prev hlen
    rcases ts with - | ⟨t0, ts0⟩
    · simp at hlen
    · have hlen0 : ts0.length = fs.length := by simpa using hlen
      simp only [List.cons_append, seqScoreAux, List.append_eq]
      rw [ih ts0 t0 hlen0, List.getLastD_cons]
      ring

theorem seqRawScore_snoc (m : CrfModel) (fv : FeatureVector) (T : Tag)
    (fvs : List FeatureVector) (ts : List Tag) (hlen : ts.length = fvs.length)
    (hne : ts ≠ []) (d : Tag) :
    seqRawScore m (fvs ++ [fv]) (ts ++ [T]) =
      seqRawScore m fvs ts + m.transitionScore (ts.getLastD d) T + m.emissionScore fv T := by
  rcases ts with - | ⟨t0, ts0⟩
  · exact absurd rfl hne
  rcases fvs with - | ⟨f0, fs⟩
  · simp at hlen
  have hlen0 : ts0.length = fs.length := by simpa using hlen
  simp only [List.cons_append, seqRawScore]
  rw [seqScoreAux_snoc m fv T fs ts0 t0 hlen0, List.getLastD_cons]
  ring

theorem illegalStepsFrom_snoc (T : Tag) :
    ∀ (ts : List Tag) (prev : Tag),
      illegalStepsFrom prev (ts ++ [T]) =
        illegalStepsFrom prev ts +
          (if Tag.isValidTransition (ts.getLastD prev) T then 0 else 1) := by
  intro ts
  induction ts with
  | nil => intro prev; simp [illegalStepsFrom]
  | cons t0 ts0 ih =>
    intro prev
    simp only [List.cons_append, illegalStepsFrom, List.append_eq]
    rw [ih t0, List.getLastD_cons]
    ring

theorem illegalCount_snoc (T : Tag) (ts : List Tag) (hne : ts ≠ []) (d : Tag) :
    illegalCount (ts ++ [T]) =
      illegalCount ts + (if Tag.isValidTransition (ts.getLastD d) T then 0 else 1) := by
  rcases ts with - | ⟨t0, ts0⟩
  · exact absurd rfl hne
  simp only [List.cons_append, illegalCount]
  rw [illegalStepsFrom_snoc T ts0 t0, List.getLastD_cons]

/-- What one Viterbi cell computes: some backpointer `bp < 9`, with the
cell's score being the previous row's entry at `bp`, plus the transition
and emission scores, minus 10 exactly when the chosen transition is
BIO-illegal. -/
theorem viterbiCell_spec (m : CrfModel) (row emRow : List ℚ) (t : ℕ) :
    (viterbiCell m row emRow t).2.1 < 9 ∧
    (viterbiCell m row emRow t).1 =
      row.getD (viterbiCell m row emRow t).2.1 0 +
        m.transitionScore (tagOfIdx (viterbiCell m row emRow t).2.1) (tagOfIdx t) +
        emRow.getD t 0 -
        (if Tag.isValidTransition (tagOfIdx (viterbiCell m row emRow t).2.1) (tagOfIdx t)
          then 0 else 10) := by
  have hcands_len : ((List.range 9).map
      (fun p => row.getD p 0 + m.transitionScore (tagOfIdx p) (tagOfIdx t))).length = 9 := by
    simp
  have hcands_ne : ((List.range 9).map
      (fun p => row.getD p 0 + m.transitionScore (tagOfIdx p) (tagOfIdx t))) ≠ [] := by
    intro hh
    have h2 := congrArg List.length hh
    simp at h2
  obtain ⟨hlt, hv⟩ := maxFirstIdx_spec _ hcands_ne
  rw [hcands_len] at hlt
  have hbv : (maxFirstIdx ((List.range 9).map
      (fun p => row.getD p 0 + m.transitionScore (tagOfIdx p) (tagOfIdx t)))).2 =
      row.getD (maxFirstIdx ((List.range 9).map
        (fun p => row.getD p 0 + m.transitionScore (tagOfIdx p) (tagOfIdx t)))).1 0 +
      m.transitionScore (tagOfIdx (maxFirstIdx ((List.range 9).map
        (fun p => row.getD p 0 + m.transitionScore (tagOfIdx p) (tagOfIdx t)))).1) (tagOfIdx t) := by
    rw [hv, getD_map_of_lt _ _ _ (by simpa using hlt) _ 0, getD_range_of_lt 9 _ hlt]
  constructor
  · simpa only [viterbiCell] using hlt
  · simp only [viterbiCell]
    rw [hbv]
    split_ifs with h
    · ring
    · ring

/-- The invariant carried along the Viterbi fold: the row has 9 entries,
one backpointer row per processed token beyond the first, and each row
entry equals the raw score of the backtracked chain ending at that tag,
minus 10 for each BIO-illegal transition the chain uses. -/
def viterbiInv (m : CrfModel) (processed : List FeatureVector)
    (st : List ℚ × List (List ℕ) × List ViterbiStep × ℕ) : Prop :=
  st.1.length = 9 ∧ st.2.1.length + 1 = processed.length ∧
  ∀ t, t < 9 →
    st.1.getD t 0 =
      seqRawScore m processed ((btRev st.2.1 t).map tagOfIdx) -
        10 * (illegalCount ((btRev st.2.1 t).map tagOfIdx) : ℚ)

theorem viterbiFoldStep_inv (m : CrfModel) (processed : List FeatureVector)
    (fv : FeatureVector) (st : List ℚ × List (List ℕ) × List ViterbiStep × ℕ)
    (h : viterbiInv m processed st) :
    viterbiInv m (processed ++ [fv]) (viterbiFoldStep m st fv) := by
  obtain ⟨hlen9, hbps, hval⟩ := h
  refine ⟨by simp [viterbiFoldStep], by simp [viterbiFoldStep, hbps], ?_⟩
  intro t ht
  obtain ⟨hbp9, hcellval⟩ := viterbiCell_spec m st.1 (Tag.all.map (m.emissionScore fv)) t
  have hcell : ((List.range 9).map (viterbiCell m st.1
      (Tag.all.map (m.emissionScore fv)))).getD t (0, 0, 0) =
      viterbiCell m st.1 (Tag.all.map (m.emissionScore fv)) t := by
    rw [getD_map_of_lt _ _ t (by simpa using ht) _ 0, getD_range_of_lt 9 t ht]
  have hnewrow : (((List.range 9).map (viterbiCell m st.1
      (Tag.all.map (m.emissionScore fv)))).map (·.1)).getD t 0 =
      (viterbiCell m st.1 (Tag.all.map (m.emissionScore fv)) t).1 := by
    rw [getD_map_of_lt _ _ t (by simpa using ht) _ (0, 0, 0), hcell]
  have hnewbps : (((List.range 9).map (viterbiCell m st.1
      (Tag.all.map (m.emissionScore fv)))).map (·.2.1)).getD t 0 =
      (viterbiCell m st.1 (Tag.all.map (m.emissionScore fv)) t).2.1 := by
    rw [getD_map_of_lt _ _ t (by simpa using ht) _ (0, 0, 0), hcell]
  have hem : (Tag.all.map (m.emissionScore fv)).getD t 0 = m.emissionScore fv (tagOfIdx t) := by
    rw [getD_map_of_lt _ _ t (by simp [Tag.all]; omega) _ Tag.Outside]
    rfl
  have hchain_len : ((btRev st.2.1 ((viterbiCell m st.1
      (Tag.all.map (m.emissionScore fv)) t).2.1)).map tagOfIdx).length = processed.length := by
    simp [btRev_length, hbps]
  have hchain_ne : (btRev st.2.1 ((viterbiCell m st.1
      (Tag.all.map (m.emissionScore fv)) t).2.1)).map tagOfIdx ≠ [] := by
    intro hh
    have h2 := congrArg List.length hh
    simp [btRev_length] at h2
  obtain ⟨ys, hys⟩ := btRev_ends st.2.1 ((viterbiCell m st.1
    (Tag.all.map (m.emissionScore fv)) t).2.1)
  have hlast : ((btRev st.2.1 ((viterbiCell m st.1
      (Tag.all.map (m.emissionScore fv)) t).2.1)).map tagOfIdx).getLastD Tag.Outside =
      tagOfIdx ((viterbiCell m st.1 (Tag.all.map (m.emissionScore fv)) t).2.1) := by
    rw [hys, List.map_append]
    simp
  have hprev := hval _ hbp9
  show (((List.range 9).map (viterbiCell m st.1
      (Tag.all.map (m.emissionScore fv)))).map (·.1)).getD t 0 = _
  rw [hnewrow, hcellval, hprev]
  have hbt : btRev ((((List.range 9).map (viterbiCell m st.1
      (Tag.all.map (m.emissionScore fv)))).map (·.2.1)) :: st.2.1) t =
      btRev st.2.1 ((viterbiCell m st.1 (Tag.all.map (m.emissionScore fv)) t).2.1) ++ [t] := by
    simp only [btRev]
    rw [hnewbps]
  show _ = seqRawScore m (processed ++ [fv]) ((btRev ((((List.range 9).map (viterbiCell m st.1
      (Tag.all.map (m.emissionScore fv)))).map (·.2.1)) :: st.2.1) t).map tagOfIdx) -
      10 * (illegalCount ((btRev ((((List.range 9).map (viterbiCell m st.1
        (Tag.all.map (m.emissionScore fv)))).map (·.2.1)) :: st.2.1) t).map tagOfIdx) : ℚ)
  rw [hbt, List.map_append]
  rw [show ([t].map tagOfIdx) = [tagOfIdx t] from rfl]
  rw [seqRawScore_snoc m fv (tagOfIdx t) processed _ hchain_len hchain_ne Tag.Outside]
  rw [illegalCount_snoc (tagOfIdx t) _ hchain_ne Tag.Outside]
  rw [hlast, hem]
  split_ifs with hv2
  · push_cast
    ring
  · push_cast
    ring

theorem viterbiFold_inv (m : CrfModel) :
    ∀ (rest processed : List FeatureVector)
      (st : List ℚ × List (List ℕ) × List ViterbiStep × ℕ),
      viterbiInv m processed st →
      viterbiInv m (processed ++ rest) (rest.foldl (viterbiFoldStep m) st) := by
  intro rest
  induction rest with
  | nil => intro processed st h; simpa using h
  | cons fv rest ih =>
    intro processed st h
    have h2 := viterbiFoldStep_inv m processed fv st h
    have h3 := ih (processed ++ [fv]) _ h2
    simpa using h3

theorem viterbiInit_inv (m : CrfModel) (fv0 : FeatureVector)
    (step0 : ViterbiStep) :
    viterbiInv m [fv0] (Tag.all.map (m.emissionScore fv0), [], [step0], 1) := by
  refine ⟨by simp [Tag.all], by simp, ?_⟩
  intro t ht
  show (Tag.all.map (m.emissionScore fv0)).getD t 0 =
    seqRawScore m [fv0] ((btRev [] t).map tagOfIdx) -
      10 * (illegalCount ((btRev [] t).map tagOfIdx) : ℚ)
  have hem : (Tag.all.map (m.emissionScore fv0)).getD t 0 = m.emissionScore fv0 (tagOfIdx t) := by
    rw [getD_map_of_lt _ _ t (by simp [Tag.all]; omega) _ Tag.Outside]
    rfl
  rw [hem]
  show m.emissionScore fv0 (tagOfIdx t) =
    seqRawScore m [fv0] [tagOfIdx t] - 10 * (illegalCount [tagOfIdx t] : ℚ)
  simp [seqRawScore, seqScoreAux, illegalCount, illegalStepsFrom]

theorem viterbiDecode_nonempty_spec (m : CrfModel) (fv0 : FeatureVector)
    (rest : List FeatureVector) (s0 : ViterbiStep) :
    ((btRev (rest.foldl (viterbiFoldStep m)
        (Tag.all.map (m.emissionScore fv0), [], [s0], 1)).2.1
      (maxLastIdx (rest.foldl (viterbiFoldStep m)
        (Tag.all.map (m.emissionScore fv0), [], [s0], 1)).1).1).map tagOfIdx).length =
      (fv0 :: rest).length ∧
    (maxLastIdx (rest.foldl (viterbiFoldStep m)
        (Tag.all.map (m.emissionScore fv0), [], [s0], 1)).1).2 =
      seqRawScore m (fv0 :: rest)
        ((btRev (rest.foldl (viterbiFoldStep m)
            (Tag.all.map (m.emissionScore fv0), [], [s0], 1)).2.1
          (maxLastIdx (rest.foldl (viterbiFoldStep m)
            (Tag.all.map (m.emissionScore fv0), [], [s0], 1)).1).1).map tagOfIdx) -
        10 * ((illegalCount ((btRev (rest.foldl (viterbiFoldStep m)
            (Tag.all.map (m.emissionScore fv0), [], [s0], 1)).2.1
          (maxLastIdx (rest.foldl (viterbiFoldStep m)
            (Tag.all.map (m.emissionScore fv0), [], [s0], 1)).1).1).map tagOfIdx) : ℚ)) := by
  have hinv := viterbiFold_inv m rest [fv0] _ (viterbiInit_inv m fv0 s0)
  obtain ⟨hlen9, hbps, hval⟩ := hinv
  have hrow_ne : (rest.foldl (viterbiFoldStep m)
      (Tag.all.map (m.emissionScore fv0), [], [s0], 1)).1 ≠ [] := by
    intro hh
    have h2 := congrArg List.length hh
    rw [hlen9] at h2
    simp at h2
  obtain ⟨hbl_lt, hbl_val⟩ := maxLastIdx_spec _ hrow_ne
  rw [hlen9] at hbl_lt
  have hfinal := hval _ hbl_lt
  constructor
  · rw [List.length_map, btRev_length]
    simpa using hbps
  · simp only [List.singleton_append] at hfinal
    rw [hbl_val, hfinal]

/-- C2: on every model and non-empty input, the Viterbi decoder returns a
full-length tag sequence (it never fails and never forbids a
transition), and its reported best score equals the raw path score of
the returned sequence (emissions plus transitions) minus exactly `10.0`
for each transition in the sequence that the BIO grammar
(`is_valid_transition`) marks illegal. -/
theorem viterbi_penalizes_illegal_transitions (m : CrfModel)
    (fvs : List FeatureVector) (hne : fvs ≠ []) :
    (viterbiDecode m fvs).best_sequence.length = fvs.length ∧
    (viterbiDecode m fvs).best_score =
      seqRawScore m fvs (viterbiDecode m fvs).best_sequence -
        10 * (illegalCount (viterbiDecode m fvs).best_sequence : ℚ) := by
  rcases fvs with - | ⟨fv0, rest⟩
  · exact absurd rfl hne
  exact viterbiDecode_nonempty_spec m fv0 rest _


/-- C2 witness: the theorem applied to the all-zero-weight model and a
single concrete feature vector. -/
theorem viterbi_penalizes_illegal_transitions_witness :
    ([⟨[("a", 1)], 0⟩] : List FeatureVector) ≠ [] ∧
    ((viterbiDecode ⟨fun _ => 0, fun _ _ => 0⟩ [⟨[("a", 1)], 0⟩]).best_sequence.length = 1 ∧
     (viterbiDecode ⟨fun _ => 0, fun _ _ => 0⟩ [⟨[("a", 1)], 0⟩]).best_score =
       seqRawScore ⟨fun _ => 0, fun _ _ => 0⟩ [⟨[("a", 1)], 0⟩]
         (viterbiDecode ⟨fun _ => 0, fun _ _ => 0⟩ [⟨[("a", 1)], 0⟩]).best_sequence -
         10 * (illegalCount
           (viterbiDecode ⟨fun _ => 0, fun _ _ => 0⟩ [⟨[("a", 1)], 0⟩]).best_sequence : ℚ)) := by
  constructor
  · simp
  · have h := viterbi_penalizes_illegal_transitions ⟨fun _ => 0, fun _ _ => 0⟩
      [⟨[("a", 1)], 0⟩] (by simp)
    exact ⟨by simpa using h.1, h.2⟩

/-! ## Hidden Markov Model — src/ner-core/src/hmm.rs

The Rust code stores `prob.ln()` for each smoothed probability.  `ln` is
strictly monotone and injective on the positives and finite exactly
there, so the embedding stores the (exact, rational) probability itself:
the claim "every stored log-probability is finite (never `-∞`)" becomes
"every stored probability is strictly positive".  A key absent from a
Rust map is read back as `NEG_INFINITY` at prediction time, which is
`ln 0`; the function model accordingly returns `0` outside the key sets
populated by training. -/

/-- `AnnotatedSentence` (corpus.rs): text, domain, and (word, tag)
annotation pairs; `HmmModel::train` reads only `annotations` and the
number of sentences. -/
structure AnnotatedSentence where
  text : String
  domain : String
  annotations : List (String × String)

/-- Increment one key of a counting map (`*map.entry(k).or_insert(0) += 1`). -/
def bump1 {α : Type} [DecidableEq α] (f : α → ℕ) (k : α) : α → ℕ :=
  fun x => if x = k then f k + 1 else f x

/-- The mutable counting state of `HmmModel::train` (hmm.rs lines
73–78): four counting maps plus the vocabulary and tag `HashSet`s
(modelled as duplicate-free lists; only membership and cardinality are
consumed). -/
structure HmmCounts where
  transition_counts : String × String → ℕ
  emission_counts : String × String → ℕ
  start_counts : String → ℕ
  tag_counts : String → ℕ
  vocab : List String
  all_tags_set : List String

/-- One iteration of the inner counting loop (hmm.rs lines 84–104):
`prev` is `prev_tag` (`none` exactly when `i == 0`). -/
def countToken (c : HmmCounts) (prev : Option String) (w t : String) : HmmCounts :=
  { transition_counts :=
      match prev with
      | some p => bump1 c.transition_counts (p, t)
      | none => c.transition_counts
    emission_counts := bump1 c.emission_counts (t, w)
    start_counts :=
      match prev with
      | none => bump1 c.start_counts t
      | some _ => c.start_counts
    tag_counts := bump1 c.tag_counts t
    vocab := c.vocab.insert w
    all_tags_set := c.all_tags_set.insert t }

/-- The inner counting loop over one sentence's annotations. -/
def countSentence (c : HmmCounts) (prev : Option String) :
    List (String × String) → HmmCounts
  | [] => c
  | (w, t) :: rest => countSentence (countToken c prev w t) (some t) rest

/-- The outer counting loop over the corpus (hmm.rs lines 81–105). -/
def countCorpus (corpus : List AnnotatedSentence) : HmmCounts :=
  corpus.foldl (fun c s => countSentence c none s.annotations)
    ⟨fun _ => 0, fun _ => 0, fun _ => 0, fun _ => 0, [], []⟩

/-- Rust `String` ordering on the character lists: lexicographic by code
point (UTF-8 byte order and code-point order agree). -/
def charListLe : List Char → List Char → Bool
  | [], _ => true
  | _ :: _, [] => false
  | a :: as, b :: bs => if a < b then true else if b < a then false else charListLe as bs

/-- `Vec::<String>::sort()`: the lists sorted here are duplicate-free, so
any correct sort produces the unique sorted arrangement; insertion sort
by the Rust string order is used. -/
def sortStrings (l : List String) : List String :=
  l.insertionSort (fun a b => charListLe a.toList b.toList = true)

/-- `HmmModel` (hmm.rs).  Probability maps store the smoothed
probability whose natural log the Rust code stores (see the section
comment); `all_tags` is sorted, `vocab` is the vocabulary set. -/
structure HmmModel where
  transition_probs : String × String → ℚ
  emission_probs : String × String → ℚ
  start_probs : String → ℚ
  all_tags : List String
  vocab : List String

/-- `HmmModel::train` (hmm.rs): count, then store the add-one-smoothed
distributions (hmm.rs lines 107–152).  The emission map receives the
per-vocabulary-word entries first and then the `<UNK>` entry, so for the
key `(tag, "<UNK>")` the `1/(tag_count+|V|+1)` insert OVERWRITES any
vocabulary-word entry (relevant only when the literal word `<UNK>`
occurs in the corpus); the first `if` branch mirrors that overwrite. -/
def hmmTrain (corpus : List AnnotatedSentence) : HmmModel :=
  let c := countCorpus corpus
  let tags := sortStrings c.all_tags_set
  { start_probs := fun tag =>
      if tag ∈ tags
      then ((c.start_counts tag : ℚ) + 1) / ((corpus.length : ℚ) + tags.length)
      else 0
    transition_probs := fun pc =>
      if pc.1 ∈ tags ∧ pc.2 ∈ tags
      then ((c.transition_counts pc : ℚ) + 1) / ((c.tag_counts pc.1 : ℚ) + tags.length)
      else 0
    emission_probs := fun tw =>
      if tw.1 ∈ tags ∧ tw.2 = "<UNK>"
      then 1 / ((c.tag_counts tw.1 : ℚ) + c.vocab.length + 1)
      else if tw.1 ∈ tags ∧ tw.2 ∈ c.vocab
      then ((c.emission_counts tw : ℚ) + 1) / ((c.tag_counts tw.1 : ℚ) + c.vocab.length + 1)
      else 0
    all_tags := tags
    vocab := c.vocab }

/-- One recursion row of `HmmModel::predict` (hmm.rs lines 188–210): for
each state `s`, the emission log-prob of the (possibly `<UNK>`-mapped)
token plus the best `viterbi[prev] + transition` over previous states,
with the first strict maximum kept; the backpointer alongside. -/
def hmmStep (model : HmmModel) (token : String) (row : List ℚ) : List (ℚ × ℕ) :=
  let tok := if model.vocab.contains token then token else "<UNK>"
  (List.range model.all_tags.length).map (fun s =>
    let cands := (List.range model.all_tags.length).map (fun p =>
      row.getD p 0 +
        model.transition_probs (model.all_tags.getD p "", model.all_tags.getD s "") +
        model.emission_probs (model.all_tags.getD s "", tok))
    ((maxFirstIdx cands).2, (maxFirstIdx cands).1))

/-- `HmmModel::predict` (hmm.rs): early return on empty input, else the
Viterbi DP over the stored (log-)values with backtracking.  (The claims
proved about `predict` concern only the empty input; the stored-value
interpretation is irrelevant there.) -/
def hmmPredict (model : HmmModel) (tokens : List String) : List String :=
  match tokens with
  | [] => []
  | tok0 :: rest =>
    let ft := if model.vocab.contains tok0 then tok0 else "<UNK>"
    let row0 := model.all_tags.map (fun tag =>
      model.start_probs tag + model.emission_probs (tag, ft))
    let final := rest.foldl (fun (acc : List ℚ × List (List ℕ)) token =>
      let cells := hmmStep model token acc.1
      (cells.map (·.1), (cells.map (·.2)) :: acc.2)) (row0, [])
    (btRev final.2 (maxFirstIdx final.1).1).map (fun i => model.all_tags.getD i "")

/-- Adjacent (previous-tag, current-tag) pairs of a sentence suffix,
starting from the given previous tag. -/
def adjPairs : String → List (String × String) → List (String × String)
  | p, (_, t) :: rest => (p, t) :: adjPairs t rest
  | _, [] => []

/-- Declarative start count: sentences whose first annotation has tag `t`. -/
def startCountP (corpus : List AnnotatedSentence) (t : String) : ℕ :=
  corpus.countP (fun s =>
    match s.annotations with
    | [] => false
    | a :: _ => a.2 = t)

/-- Declarative tag-unigram count over the whole corpus. -/
def tagCountP (corpus : List AnnotatedSentence) (t : String) : ℕ :=
  ((corpus.map (·.annotations)).flatten).countP (fun a => a.2 = t)

/-- Declarative (tag, word) emission count over the whole corpus. -/
def emissionCountP (corpus : List AnnotatedSentence) (t w : String) : ℕ :=
  ((corpus.map (·.annotations)).flatten).countP (fun a => a.2 = t ∧ a.1 = w)

/-- Declarative tag-bigram count over the whole corpus. -/
def transCountP (corpus : List AnnotatedSentence) (p c : String) : ℕ :=
  ((corpus.map (fun s =>
    match s.annotations with
    | [] => []
    | (_, t) :: rest => adjPairs t rest)).flatten).countP (fun q => q = (p, c))

/-! ### C3 and C8 -/


theorem countSentence_tag (t : String) :
    ∀ (anns : List (String × String)) (c : HmmCounts) (prev : Option String),
      (countSentence c prev anns).tag_counts t =
        c.tag_counts t + anns.countP (fun a => a.2 = t) := by
  intro anns
  induction anns with
  | nil => intro c prev; simp [countSentence]
  | cons a rest ih =>
    intro c prev
    rcases a with ⟨w, tg⟩
    rw [countSentence, ih]
    simp only [countToken, List.countP_cons]
    by_cases h : tg = t
    · subst h
      simp [bump1]
      ring
    · simp [bump1, h, Ne.symm h]

theorem countSentence_emission (t w : String) :
    ∀ (anns : List (String × String)) (c : HmmCounts) (prev : Option String),
      (countSentence c prev anns).emission_counts (t, w) =
        c.emission_counts (t, w) + anns.countP (fun a => a.2 = t ∧ a.1 = w) := by
  intro anns
  induction anns with
  | nil => intro c prev; simp [countSentence]
  | cons a rest ih =>
    intro c prev
    rcases a with ⟨w2, tg⟩
    rw [countSentence, ih]
    simp only [countToken, List.countP_cons]
    by_cases h : tg = t ∧ w2 = w
    · rcases h with ⟨rfl, rfl⟩
      simp [bump1]
      ring
    · have hne2 : (t, w) ≠ (tg, w2) := by
        intro hh
        injection hh with h1 h2
        exact h ⟨h1.symm, h2.symm⟩
      simp only [bump1, if_neg hne2]
      simp [h]

theorem countSentence_start_some (t : String) :
    ∀ (anns : List (String × String)) (c : HmmCounts) (p : String),
      (countSentence c (some p) anns).start_counts t = c.start_counts t := by
  intro anns
  induction anns with
  | nil => intro c p; simp [countSentence]
  | cons a rest ih =>
    intro c p
    rcases a with ⟨w, tg⟩
    rw [countSentence, ih]
    simp [countToken]

theorem countSentence_start_none (t : String) (anns : List (String × String)) (c : HmmCounts) :
    (countSentence c none anns).start_counts t =
      c.start_counts t + (match anns with
        | [] => 0
        | a :: _ => if a.2 = t then 1 else 0) := by
  rcases anns with - | ⟨⟨w, tg⟩, rest⟩
  · simp [countSentence]
  · rw [countSentence, countSentence_start_some]
    simp only [countToken]
    by_cases h : tg = t
    · subst h; simp [bump1]
    · simp [bump1, h, Ne.symm h]

theorem countSentence_trans (k : String × String) :
    ∀ (anns : List (String × String)) (c : HmmCounts) (p : String),
      (countSentence c (some p) anns).transition_counts k =
        c.transition_counts k + (adjPairs p anns).countP (fun q => q = k) := by
  intro anns
  induction anns with
  | nil => intro c p; simp [countSentence, adjPairs]
  | cons a rest ih =>
    intro c p
    rcases a with ⟨w, tg⟩
    rw [countSentence, ih]
    simp only [countToken, adjPairs, List.countP_cons]
    by_cases h : (p, tg) = k
    · subst h
      simp [bump1]
      ring
    · simp [bump1, h]
      intro hh
      subst hh
      exact absurd rfl h

theorem countSentence_trans_none (k : String × String) (anns : List (String × String))
    (c : HmmCounts) :
    (countSentence c none anns).transition_counts k =
      c.transition_counts k + (match anns with
        | [] => []
        | (_, t) :: rest => adjPairs t rest).countP (fun q => q = k) := by
  rcases anns with - | ⟨⟨w, tg⟩, rest⟩
  · simp [countSentence]
  · rw [countSentence, countSentence_trans]
    simp [countToken]

theorem countCorpus_tag (t : String) (corpus : List AnnotatedSentence) :
    (countCorpus corpus).tag_counts t = tagCountP corpus t := by
  suffices h : ∀ (cs : List AnnotatedSentence) (c : HmmCounts),
      (cs.foldl (fun c s => countSentence c none s.annotations) c).tag_counts t =
        c.tag_counts t + tagCountP cs t by
    simpa [countCorpus] using h corpus ⟨fun _ => 0, fun _ => 0, fun _ => 0, fun _ => 0, [], []⟩
  intro cs
  induction cs with
  | nil => intro c; simp [tagCountP]
  | cons s rest ih =>
    intro c
    rw [List.foldl_cons, ih, countSentence_tag]
    simp [tagCountP, List.countP_append]
    ring

theorem countCorpus_emission (t w : String) (corpus : List AnnotatedSentence) :
    (countCorpus corpus).emission_counts (t, w) = emissionCountP corpus t w := by
  suffices h : ∀ (cs : List AnnotatedSentence) (c : HmmCounts),
      (cs.foldl (fun c s => countSentence c none s.annotations) c).emission_counts (t, w) =
        c.emission_counts (t, w) + emissionCountP cs t w by
    simpa [countCorpus] using h corpus ⟨fun _ => 0, fun _ => 0, fun _ => 0, fun _ => 0, [], []⟩
  intro cs
  induction cs with
  | nil => intro c; simp [emissionCountP]
  | cons s rest ih =>
    intro c
    rw [List.foldl_cons, ih, countSentence_emission]
    simp [emissionCountP, List.countP_append]
    ring

theorem countCorpus_start (t : String) (corpus : List AnnotatedSentence) :
    (countCorpus corpus).start_counts t = startCountP corpus t := by
  suffices h : ∀ (cs : List AnnotatedSentence) (c : HmmCounts),
      (cs.foldl (fun c s => countSentence c none s.annotations) c).start_counts t =
        c.start_counts t + startCountP cs t by
    simpa [countCorpus] using h corpus ⟨fun _ => 0, fun _ => 0, fun _ => 0, fun _ => 0, [], []⟩
  intro cs
  induction cs with
  | nil => intro c; simp [startCountP]
  | cons s rest ih =>
    intro c
    rw [List.foldl_cons, ih, countSentence_start_none]
    simp only [startCountP, List.countP_cons]
    rcases hann : s.annotations with - | ⟨a, arest⟩
    · simp [startCountP, hann]
    · by_cases ha : a.2 = t
      · simp [startCountP, hann, ha]
        ring
      · simp [startCountP, hann, ha]

theorem countCorpus_trans (p c2 : String) (corpus : List AnnotatedSentence) :
    (countCorpus corpus).transition_counts (p, c2) = transCountP corpus p c2 := by
  suffices h : ∀ (cs : List AnnotatedSentence) (c : HmmCounts),
      (cs.foldl (fun c s => countSentence c none s.annotations) c).transition_counts (p, c2) =
        c.transition_counts (p, c2) + transCountP cs p c2 by
    simpa [countCorpus] using h corpus ⟨fun _ => 0, fun _ => 0, fun _ => 0, fun _ => 0, [], []⟩
  intro cs
  induction cs with
  | nil => intro c; simp [transCountP]
  | cons s rest ih =>
    intro c
    rw [List.foldl_cons, ih, countSentence_trans_none]
    simp only [transCountP, List.map_cons, List.flatten_cons, List.countP_append]
    rcases hann : s.annotations with - | ⟨⟨w, tg⟩, arest⟩
    · simp [transCountP, hann]
    · simp [transCountP, hann]
      ring

/-- C3 (amended): the stored start probability is
`(start_count+1)/(num_sentences+|tags|)`, each transition probability is
`(bigram_count+1)/(prev_tag_count+|tags|)`, each emission probability of
a vocabulary word other than the literal string `<UNK>` is
`(count+1)/(tag_count+|vocab|+1)`, the `<UNK>` entry is always
`1/(tag_count+|vocab|+1)` (count 0), and every stored probability is
strictly positive — its natural log, which the Rust code stores, is
finite. -/
theorem hmm_train_laplace_smoothing (corpus : List AnnotatedSentence) (t : String)
    (ht : t ∈ (hmmTrain corpus).all_tags) :
    ((hmmTrain corpus).start_probs t =
        ((startCountP corpus t : ℚ) + 1) /
          ((corpus.length : ℚ) + (hmmTrain corpus).all_tags.length) ∧
      0 < (hmmTrain corpus).start_probs t) ∧
    (∀ c2 ∈ (hmmTrain corpus).all_tags,
      (hmmTrain corpus).transition_probs (t, c2) =
          ((transCountP corpus t c2 : ℚ) + 1) /
            ((tagCountP corpus t : ℚ) + (hmmTrain corpus).all_tags.length) ∧
        0 < (hmmTrain corpus).transition_probs (t, c2)) ∧
    (∀ w ∈ (hmmTrain corpus).vocab, w ≠ "<UNK>" →
      (hmmTrain corpus).emission_probs (t, w) =
          ((emissionCountP corpus t w : ℚ) + 1) /
            ((tagCountP corpus t : ℚ) + (hmmTrain corpus).vocab.length + 1) ∧
        0 < (hmmTrain corpus).emission_probs (t, w)) ∧
    ((hmmTrain corpus).emission_probs (t, "<UNK>") =
        1 / ((tagCountP corpus t : ℚ) + (hmmTrain corpus).vocab.length + 1) ∧
      0 < (hmmTrain corpus).emission_probs (t, "<UNK>")) := by
  have ht2 : t ∈ sortStrings (countCorpus corpus).all_tags_set := ht
  have htagpos : 0 < ((sortStrings (countCorpus corpus).all_tags_set).length : ℚ) := by
    have h2 : 0 < (sortStrings (countCorpus corpus).all_tags_set).length :=
      List.length_pos.mpr (List.ne_nil_of_mem ht2)
    exact_mod_cast h2
  refine ⟨⟨?_, ?_⟩, ?_, ?_, ⟨?_, ?_⟩⟩
  · show (if t ∈ sortStrings (countCorpus corpus).all_tags_set then _ else _) = _
    rw [if_pos ht2, countCorpus_start]
    rfl
  · show 0 < (if t ∈ sortStrings (countCorpus corpus).all_tags_set then _ else _)
    rw [if_pos ht2]
    refine div_pos (by positivity) ?_
    have h3 : (0 : ℚ) ≤ (corpus.length : ℚ) := by positivity
    linarith
  · intro c2 hc2
    have hc22 : c2 ∈ sortStrings (countCorpus corpus).all_tags_set := hc2
    constructor
    · show (if t ∈ sortStrings (countCorpus corpus).all_tags_set ∧
          c2 ∈ sortStrings (countCorpus corpus).all_tags_set then _ else _) = _
      rw [if_pos ⟨ht2, hc22⟩, countCorpus_trans, countCorpus_tag]
      rfl
    · show 0 < (if t ∈ sortStrings (countCorpus corpus).all_tags_set ∧
          c2 ∈ sortStrings (countCorpus corpus).all_tags_set then _ else _)
      rw [if_pos ⟨ht2, hc22⟩]
      refine div_pos (by positivity) ?_
      have h0 : (0 : ℚ) ≤ ((countCorpus corpus).tag_counts (t, c2).1 : ℚ) := by positivity
      linarith
  · intro w hw hwne
    have hw2 : w ∈ (countCorpus corpus).vocab := hw
    constructor
    · show (if t ∈ sortStrings (countCorpus corpus).all_tags_set ∧ w = "<UNK>" then _
          else if t ∈ sortStrings (countCorpus corpus).all_tags_set ∧
            w ∈ (countCorpus corpus).vocab then _ else _) = _
      rw [if_neg (by intro hh; exact hwne hh.2), if_pos ⟨ht2, hw2⟩,
        countCorpus_emission, countCorpus_tag]
      rfl
    · show 0 < (if t ∈ sortStrings (countCorpus corpus).all_tags_set ∧ w = "<UNK>" then _
          else if t ∈ sortStrings (countCorpus corpus).all_tags_set ∧
            w ∈ (countCorpus corpus).vocab then _ else _)
      rw [if_neg (by intro hh; exact hwne hh.2), if_pos ⟨ht2, hw2⟩]
      exact div_pos (by positivity) (by positivity)
  · show (if t ∈ sortStrings (countCorpus corpus).all_tags_set ∧ ("<UNK>" : String) = "<UNK>"
        then _ else _) = _
    rw [if_pos ⟨ht2, rfl⟩, countCorpus_tag]
    rfl
  · show 0 < (if t ∈ sortStrings (countCorpus corpus).all_tags_set ∧
        ("<UNK>" : String) = "<UNK>" then _ else _)
    rw [if_pos ⟨ht2, rfl⟩]
    exact div_pos (by norm_num) (by positivity)

/-- C3 counterexample: on the one-sentence corpus whose only word is the
literal string `<UNK>` (tagged `O`), the stored emission probability for
`(O, <UNK>)` is `1/3 = 1/(tag_count+|V|+1)` — the dedicated `<UNK>`
insert overwrites the vocabulary-word entry — while the claimed formula
`(count+1)/(tag_count+|V|+1)` gives `2/3`, since that key's emission
count is 1. -/
theorem hmm_unk_overwrite_counterexample :
    (hmmTrain [⟨"u", "d", [("<UNK>", "O")]⟩]).emission_probs ("O", "<UNK>") = 1/3 ∧
    ((emissionCountP [⟨"u", "d", [("<UNK>", "O")]⟩] "O" "<UNK>" : ℚ) + 1) /
      ((tagCountP [⟨"u", "d", [("<UNK>", "O")]⟩] "O" : ℚ) +
        (hmmTrain [⟨"u", "d", [("<UNK>", "O")]⟩]).vocab.length + 1) = 2/3 ∧
    "<UNK>" ∈ (hmmTrain [⟨"u", "d", [("<UNK>", "O")]⟩]).vocab ∧
    "O" ∈ (hmmTrain [⟨"u", "d", [("<UNK>", "O")]⟩]).all_tags ∧
    (1 : ℚ)/3 ≠ 2/3 := by
  refine ⟨?_, ?_, by decide, by decide, by norm_num⟩
  · norm_num [hmmTrain, countCorpus, countSentence, countToken, bump1, sortStrings,
      List.insertionSort, List.orderedInsert, charListLe]
  · norm_num [emissionCountP, tagCountP, hmmTrain, countCorpus, countSentence, countToken,
      bump1, sortStrings, List.insertionSort, List.orderedInsert, charListLe]

/-- C3 witness: the amended statement applied to a concrete one-sentence
corpus and the tag `B-PER`. -/
theorem hmm_train_laplace_smoothing_witness :
    ((hmmTrain [⟨"Lula é", "t", [("Lula", "B-PER"), ("é", "O")]⟩]).start_probs "B-PER" =
        ((startCountP [⟨"Lula é", "t", [("Lula", "B-PER"), ("é", "O")]⟩] "B-PER" : ℚ) + 1) /
          ((([⟨"Lula é", "t", [("Lula", "B-PER"), ("é", "O")]⟩] :
              List AnnotatedSentence).length : ℚ) +
            (hmmTrain [⟨"Lula é", "t", [("Lula", "B-PER"), ("é", "O")]⟩]).all_tags.length) ∧
      0 < (hmmTrain [⟨"Lula é", "t", [("Lula", "B-PER"), ("é", "O")]⟩]).start_probs "B-PER") ∧
    (∀ c2 ∈ (hmmTrain [⟨"Lula é", "t", [("Lula", "B-PER"), ("é", "O")]⟩]).all_tags,
      (hmmTrain [⟨"Lula é", "t", [("Lula", "B-PER"), ("é", "O")]⟩]).transition_probs
          ("B-PER", c2) =
          ((transCountP [⟨"Lula é", "t", [("Lula", "B-PER"), ("é", "O")]⟩] "B-PER" c2 : ℚ) + 1) /
            ((tagCountP [⟨"Lula é", "t", [("Lula", "B-PER"), ("é", "O")]⟩] "B-PER" : ℚ) +
              (hmmTrain [⟨"Lula é", "t", [("Lula", "B-PER"), ("é", "O")]⟩]).all_tags.length) ∧
        0 < (hmmTrain [⟨"Lula é", "t", [("Lula", "B-PER"), ("é", "O")]⟩]).transition_probs
          ("B-PER", c2)) ∧
    (∀ w ∈ (hmmTrain [⟨"Lula é", "t", [("Lula", "B-PER"), ("é", "O")]⟩]).vocab, w ≠ "<UNK>" →
      (hmmTrain [⟨"Lula é", "t", [("Lula", "B-PER"), ("é", "O")]⟩]).emission_probs
          ("B-PER", w) =
          ((emissionCountP [⟨"Lula é", "t", [("Lula", "B-PER"), ("é", "O")]⟩] "B-PER" w : ℚ) + 1) /
            ((tagCountP [⟨"Lula é", "t", [("Lula", "B-PER"), ("é", "O")]⟩] "B-PER" : ℚ) +
              (hmmTrain [⟨"Lula é", "t", [("Lula", "B-PER"), ("é", "O")]⟩]).vocab.length + 1) ∧
        0 < (hmmTrain [⟨"Lula é", "t", [("Lula", "B-PER"), ("é", "O")]⟩]).emission_probs
          ("B-PER", w)) ∧
    ((hmmTrain [⟨"Lula é", "t", [("Lula", "B-PER"), ("é", "O")]⟩]).emission_probs
        ("B-PER", "<UNK>") =
        1 / ((tagCountP [⟨"Lula é", "t", [("Lula", "B-PER"), ("é", "O")]⟩] "B-PER" : ℚ) +
          (hmmTrain [⟨"Lula é", "t", [("Lula", "B-PER"), ("é", "O")]⟩]).vocab.length + 1) ∧
      0 < (hmmTrain [⟨"Lula é", "t", [("Lula", "B-PER"), ("é", "O")]⟩]).emission_probs
        ("B-PER", "<UNK>")) :=
  hmm_train_laplace_smoothing [⟨"Lula é", "t", [("Lula", "B-PER"), ("é", "O")]⟩] "B-PER"
    (by decide)

/-- C8: empty input is not an error anywhere: `viterbi_decode` on an
empty feature-vector slice returns the `ViterbiResult` with empty
`best_sequence`, score `0.0` and empty `steps`; `HmmModel::predict` on
an empty token slice returns the empty tag list; and span reconstruction
of an empty tagged sequence returns the empty span list. -/
theorem empty_input_empty_output :
    (∀ m : CrfModel, viterbiDecode m [] = ⟨[], 0, []⟩) ∧
    (∀ h : HmmModel, hmmPredict h [] = []) ∧
    (∀ sliceTrim : ℕ → ℕ → String, tokensToSpans sliceTrim [] = []) :=
  ⟨fun _ => rfl, fun _ => rfl, fun _ => by simp [tokensToSpans]⟩


/-! ## MaxEnt classifier — src/ner-core/src/maxent.rs (C7) -/


/-- `MaxEntModel` (maxent.rs): `(feature, tag) → weight` map (total with
default 0, matching `.get(..)` skipping absent keys) and the tag list
(sorted by `train`). -/
structure MaxEntModel where
  weights : String × String → ℚ
  tags : List String

/-- `MaxEntModel::compute_scores` (maxent.rs): per tag, the raw linear
score `Σ weight[(feat, tag)] * feat_val`; the `HashMap` it returns holds
exactly these entries, here in `tags` order. -/
def MaxEntModel.computeScores (m : MaxEntModel) (fv : FeatureVector) : List (String × ℚ) :=
  m.tags.map (fun tag =>
    (tag, (fv.features.map (fun p => m.weights (p.1, tag) * p.2)).sum))

/-- `MaxEntModel::predict_best` (maxent.rs): fold over the score map's
entries in iteration order; `best_val` starts at `NEG_INFINITY` (`⊥`),
`best_tag` at `self.tags[0]` (passed as `tags0`), and an entry replaces
the best only when strictly greater — the FIRST maximal entry in
iteration order wins. -/
def predictBest (tags0 : String) (entries : List (String × ℚ)) : String × WithBot ℚ :=
  entries.foldl (fun acc e =>
    if (e.2 : WithBot ℚ) > acc.2 then (e.1, (e.2 : WithBot ℚ)) else acc)
    (tags0, ⊥)

/-- `MaxEntModel::predict` (maxent.rs) over pre-extracted feature
vectors (feature extraction is a separate pure stage): greedy per-token
classification.  `order` models the unspecified iteration order of the
`HashMap` returned by `compute_scores`: the code iterates its entries in
some permutation of them. -/
def maxentPredict (m : MaxEntModel) (order : List (String × ℚ) → List (String × ℚ))
    (fvs : List FeatureVector) : List String :=
  fvs.map (fun fv => (predictBest (m.tags.headD "") (order (m.computeScores fv))).1)

theorem predictBest_fold (step : String × WithBot ℚ → String × ℚ → String × WithBot ℚ)
    (hstep : step = fun acc e =>
      if (e.2 : WithBot ℚ) > acc.2 then (e.1, (e.2 : WithBot ℚ)) else acc) :
    ∀ (rest : List (String × ℚ)) (tg : String) (q : ℚ),
      ∃ q2 : ℚ, rest.foldl step (tg, (q : WithBot ℚ)) =
          ((rest.foldl step (tg, (q : WithBot ℚ))).1, (q2 : WithBot ℚ)) ∧
        (((rest.foldl step (tg, (q : WithBot ℚ))).1 = tg ∧ q2 = q) ∨
          ((rest.foldl step (tg, (q : WithBot ℚ))).1, q2) ∈ rest) ∧
        q ≤ q2 ∧ ∀ p ∈ rest, p.2 ≤ q2 := by
  intro rest
  induction rest with
  | nil =>
    intro tg q
    exact ⟨q, rfl, Or.inl ⟨rfl, rfl⟩, le_refl q, by simp⟩
  | cons e rest ih =>
    intro tg q
    rw [List.foldl_cons, hstep]
    by_cases hgt : (e.2 : WithBot ℚ) > (q : WithBot ℚ)
    · have hq : (q : ℚ) < e.2 := by exact_mod_cast hgt
      simp only [if_pos hgt]
      rw [← hstep]
      rcases ih e.1 e.2 with ⟨q2, h1, h2, h3, h4⟩
      refine ⟨q2, h1, ?_, le_of_lt (lt_of_lt_of_le hq h3), ?_⟩
      · rcases h2 with ⟨ha, hb⟩ | h2
        · right; rw [ha, hb]; simp
        · right; simp [h2]
      · intro p hp
        rcases List.mem_cons.mp hp with rfl | hp
        · exact h3
        · exact h4 p hp
    · have hq : e.2 ≤ (q : ℚ) := by
        by_contra hlt
        exact hgt (by exact_mod_cast lt_of_not_le hlt)
      simp only [if_neg hgt]
      rw [← hstep]
      rcases ih tg q with ⟨q2, h1, h2, h3, h4⟩
      refine ⟨q2, h1, ?_, h3, ?_⟩
      · rcases h2 with ⟨ha, hb⟩ | h2
        · left; exact ⟨ha, hb⟩
        · right; simp [h2]
      · intro p hp
        rcases List.mem_cons.mp hp with rfl | hp
        · exact le_trans hq h3
        · exact h4 p hp

theorem predictBest_spec (d : String) (entries : List (String × ℚ)) (hne : entries ≠ []) :
    ∃ q : ℚ, (predictBest d entries).2 = (q : WithBot ℚ) ∧
      ((predictBest d entries).1, q) ∈ entries ∧ ∀ p ∈ entries, p.2 ≤ q := by
  rcases entries with - | ⟨e, rest⟩
  · exact absurd rfl hne
  have hfirst : (if (e.2 : WithBot ℚ) > ((d, (⊥ : WithBot ℚ)).2) then (e.1, (e.2 : WithBot ℚ))
      else (d, (⊥ : WithBot ℚ))) = (e.1, (e.2 : WithBot ℚ)) := by
    rw [if_pos]
    exact WithBot.bot_lt_coe e.2
  have hpb : predictBest d (e :: rest) =
      rest.foldl (fun acc e2 =>
        if (e2.2 : WithBot ℚ) > acc.2 then (e2.1, (e2.2 : WithBot ℚ)) else acc)
        (e.1, (e.2 : WithBot ℚ)) := by
    simp only [predictBest, List.foldl_cons]
    rw [hfirst]
  rcases predictBest_fold _ rfl rest e.1 e.2 with ⟨q2, h1, h2, h3, h4⟩
  refine ⟨q2, ?_, ?_, ?_⟩
  · rw [hpb, h1]
  · rw [hpb]
    rcases h2 with ⟨ha, hb⟩ | h2
    · rw [ha, hb]
      simp
    · simp [h2]
  · intro p hp
    rcases List.mem_cons.mp hp with rfl | hp
    · exact h3
    · exact h4 p hp

/-- C7 (amended): for every model with a non-empty tag list and every
iteration order of the score map (any permutation of its entries —
Rust's `HashMap` iteration order is unspecified), `predict` returns, for
each token, a tag whose raw linear score is maximal among all tags;
among tied maximal tags the returned one is the first in the map's
iteration order, which need not be the sorted tag order. -/
theorem maxent_predict_max_score (m : MaxEntModel)
    (order : List (String × ℚ) → List (String × ℚ))
    (horder : ∀ l, (order l).Perm l)
    (fvs : List FeatureVector) (htags : m.tags ≠ []) :
    (maxentPredict m order fvs).length = fvs.length ∧
    ∀ fv ∈ fvs, ∃ q : ℚ,
      ((predictBest (m.tags.headD "") (order (m.computeScores fv))).1, q) ∈
        m.computeScores fv ∧
      (∀ p ∈ m.computeScores fv, p.2 ≤ q) ∧
      maxentPredict m order [fv] =
        [(predictBest (m.tags.headD "") (order (m.computeScores fv))).1] := by
  constructor
  · simp [maxentPredict]
  · intro fv hfv
    have hcs_ne : m.computeScores fv ≠ [] := by
      intro hh
      have h2 := congrArg List.length hh
      simp [MaxEntModel.computeScores] at h2
      exact htags h2
    have hord_ne : order (m.computeScores fv) ≠ [] := by
      intro hh
      have h2 := (horder (m.computeScores fv)).length_eq
      rw [hh] at h2
      exact hcs_ne (List.eq_nil_of_length_eq_zero h2.symm)
    rcases predictBest_spec (m.tags.headD "") (order (m.computeScores fv)) hord_ne with
      ⟨q, h1, h2, h3⟩
    refine ⟨q, ?_, ?_, rfl⟩
    · exact (horder (m.computeScores fv)).mem_iff.mp h2
    · intro p hp
      exact h3 p ((horder (m.computeScores fv)).mem_iff.mpr hp)

/-- C7 witness: the amended statement applied to a concrete two-tag
model, the identity iteration order, and one concrete feature vector. -/
theorem maxent_predict_max_score_witness :
    (maxentPredict ⟨fun _ => 0, ["B-PER", "O"]⟩ id [⟨[("bias", 1)], 0⟩]).length = 1 ∧
    ∀ fv ∈ ([⟨[("bias", 1)], 0⟩] : List FeatureVector), ∃ q : ℚ,
      ((predictBest ((["B-PER", "O"] : List String).headD "")
          (id ((⟨fun _ => 0, ["B-PER", "O"]⟩ : MaxEntModel).computeScores fv))).1, q) ∈
        (⟨fun _ => 0, ["B-PER", "O"]⟩ : MaxEntModel).computeScores fv ∧
      (∀ p ∈ (⟨fun _ => 0, ["B-PER", "O"]⟩ : MaxEntModel).computeScores fv, p.2 ≤ q) ∧
      maxentPredict ⟨fun _ => 0, ["B-PER", "O"]⟩ id [fv] =
        [(predictBest ((["B-PER", "O"] : List String).headD "")
          (id ((⟨fun _ => 0, ["B-PER", "O"]⟩ : MaxEntModel).computeScores fv))).1] := by
  have h := maxent_predict_max_score ⟨fun _ => 0, ["B-PER", "O"]⟩ id
    (fun l => List.Perm.refl l) [⟨[("bias", 1)], 0⟩] (by simp)
  exact ⟨by simpa using h.1, h.2⟩

/-- C7 counterexample: with the two tags `B-PER` and `O` (already in
sorted order, `B-PER` first), all-zero weights (every tag's raw score is
0, a tie) and the reversed iteration order — a legitimate `HashMap`
iteration order, being a permutation of the entries — `predict` returns
`O`, not the sorted-first tag `B-PER`: tie-breaking does NOT follow the
sorted tag order. -/
theorem maxent_tiebreak_counterexample :
    maxentPredict ⟨fun _ => 0, ["B-PER", "O"]⟩ List.reverse [⟨[("bias", 1)], 0⟩] = ["O"] ∧
    (∀ l : List (String × ℚ), (List.reverse l).Perm l) ∧
    (⟨fun _ => 0, ["B-PER", "O"]⟩ : MaxEntModel).computeScores ⟨[("bias", 1)], 0⟩ =
      [("B-PER", 0), ("O", 0)] ∧
    sortStrings ["B-PER", "O"] = ["B-PER", "O"] ∧
    ("O" : String) ≠ "B-PER" := by
  refine ⟨?_, fun l => List.reverse_perm l, ?_, by decide, by decide⟩
  · have h0 : (⊥ : WithBot ℚ) < 0 := by
      rw [show ((0 : WithBot ℚ)) = ((0 : ℚ) : WithBot ℚ) from rfl]
      exact WithBot.bot_lt_coe 0
    simp [maxentPredict, MaxEntModel.computeScores, predictBest, h0]
  · simp [MaxEntModel.computeScores]


/-! ## Averaged Perceptron — src/ner-core/src/perceptron.rs (C1) -/


/-- Point update of a total-function map (`map.insert(k, v)` /
`*map.entry(k).or_insert(d) += …` in terms of the resulting reads). -/
def mapSet {α β : Type} [DecidableEq α] (f : α → β) (k : α) (v : β) : α → β :=
  fun x => if x = k then v else f x

/-- `PerceptronModel` (perceptron.rs).  The three `HashMap`s keyed by
`(feature_name, tag)` are total functions with default 0 (every read in
the source goes through `.unwrap_or`); `weight_keys` tracks their common
key set (`update_feature` inserts into all three at once), which
`finalize_weights` iterates over. -/
structure PerceptronModel where
  weights : String × String → ℚ
  total_weights : String × String → ℚ
  last_update : String × String → ℕ
  steps : ℕ
  tags : List String
  weight_keys : List (String × String)

/-- `PerceptronModel::update_feature` (perceptron.rs lines 154–168):
catch the lazy total up using the OLD weight over the steps since the
key was last touched, stamp the key with the current step, then apply
the delta to the live weight. -/
def PerceptronModel.updateFeature (m : PerceptronModel) (fname tag : String)
    (delta : ℚ) : PerceptronModel :=
  { m with
    total_weights := mapSet m.total_weights (fname, tag)
      (m.total_weights (fname, tag) +
        ((m.steps - m.last_update (fname, tag) : ℕ) : ℚ) * m.weights (fname, tag))
    last_update := mapSet m.last_update (fname, tag) m.steps
    weights := mapSet m.weights (fname, tag) (m.weights (fname, tag) + delta)
    weight_keys := m.weight_keys.insert (fname, tag) }

/-- `PerceptronModel::update` (perceptron.rs lines 140–151): promote the
true tag and demote the predicted tag for every active feature. -/
def PerceptronModel.update (m : PerceptronModel) (fv : FeatureVector)
    (true_tag pred_tag : String) : PerceptronModel :=
  fv.features.foldl (fun m2 p =>
    (m2.updateFeature p.1 true_tag 1).updateFeature p.1 pred_tag (-1)) m

/-- `PerceptronModel::score_tag` (perceptron.rs): Σ `w * fval` over the
active features (absent weights contribute 0). -/
def PerceptronModel.scoreTag (m : PerceptronModel) (fv : FeatureVector)
    (tag : String) : ℚ :=
  (fv.features.map (fun p => m.weights (p.1, tag) * p.2)).sum

/-- `PerceptronModel::predict_single` (perceptron.rs): first strict
maximum over `self.tags`; `best_tag` starts at `tags[0]` (`""` when the
tag list is empty, as in the source) and `best_score` at
`NEG_INFINITY`. -/
def PerceptronModel.predictSingle (m : PerceptronModel) (fv : FeatureVector) : String :=
  (m.tags.foldl (fun acc tag =>
    if ((m.scoreTag fv tag : ℚ) : WithBot ℚ) > acc.2
    then (tag, ((m.scoreTag fv tag : ℚ) : WithBot ℚ)) else acc)
    (m.tags.headD "", (⊥ : WithBot ℚ))).1

/-- One iteration of the per-token training loop (perceptron.rs lines
89–101): predict with the current weights, update on a mistake, then
advance the step counter. -/
def trainStep (m : PerceptronModel) (x : FeatureVector × String) : PerceptronModel :=
  let pred := m.predictSingle x.1
  let m2 := if pred ≠ x.2 then m.update x.1 x.2 pred else m
  { m2 with steps := m2.steps + 1 }

/-- `PerceptronModel::finalize_weights` (perceptron.rs lines 171–194):
one last catch-up pass over every known key, then replace each live
weight by `total / steps` (when any steps were taken), then clear the
auxiliary maps. -/
def finalizeWeights (m : PerceptronModel) : PerceptronModel :=
  let m2 := m.weight_keys.foldl (fun acc key =>
    { acc with total_weights := (mapSet acc.total_weights key
        (acc.total_weights key +
          ((acc.steps - acc.last_update key : ℕ) : ℚ) * acc.weights key)) }) m
  let m3 := if 0 < m2.steps
    then { m2 with weights := fun k =>
            if k ∈ m2.weight_keys then m2.total_weights k / (m2.steps : ℚ)
            else m2.weights k }
    else m2
  { m3 with total_weights := fun _ => 0, last_update := fun _ => 0 }

/-- The fresh model at the start of `train` (perceptron.rs `new` plus
the tag collection at the top of `train`: the distinct tags of the
corpus, sorted).  A corpus sentence is its already-featurized list of
(feature-vector, gold-tag) pairs — feature extraction is a pure
per-token stage ahead of the training dynamics, so quantifying over all
featurized corpora covers every run of the Rust `train`. -/
def perceptronInit (corpus : List (List (FeatureVector × String))) : PerceptronModel :=
  ⟨fun _ => 0, fun _ => 0, fun _ => 0, 0,
    sortStrings ((corpus.flatten.map (·.2)).dedup), []⟩

/-- `PerceptronModel::train` (perceptron.rs lines 62–107): `iterations`
passes over the corpus, one training step per token, then the averaging
`finalize_weights`. -/
def perceptronTrain (corpus : List (List (FeatureVector × String)))
    (iterations : ℕ) : PerceptronModel :=
  finalizeWeights ((List.range iterations).foldl
    (fun m _ => corpus.foldl (fun m2 s => s.foldl trainStep m2) m)
    (perceptronInit corpus))

/-- The token-level training stream: `iterations` copies of the
flattened corpus, in training order. -/
def stepsList (corpus : List (List (FeatureVector × String)))
    (iterations : ℕ) : List (FeatureVector × String) :=
  (List.range iterations).foldl (fun acc _ => acc ++ corpus.flatten) []

/-- The naive per-step reference: replay the same training steps from
`m` and sum, for key `k`, the weight the key holds at the END of each
step (the weight the step leaves behind). -/
def traceSum (k : String × String) :
    PerceptronModel → List (FeatureVector × String) → ℚ
  | _, [] => 0
  | m, x :: xs => (trainStep m x).weights k + traceSum k (trainStep m x) xs

/-- The lazy accumulator for key `k`: the stored running total plus the
pending not-yet-materialized contribution of the current weight. -/
def lazyAcc (m : PerceptronModel) (k : String × String) : ℚ :=
  m.total_weights k + ((m.steps - m.last_update k : ℕ) : ℚ) * m.weights k

theorem updateFeature_inv (m : PerceptronModel) (f tg : String) (d : ℚ)
    (h : ∀ k, m.last_update k ≤ m.steps) :
    (m.updateFeature f tg d).steps = m.steps ∧
    (∀ k, (m.updateFeature f tg d).last_update k ≤ (m.updateFeature f tg d).steps) ∧
    (∀ k, lazyAcc (m.updateFeature f tg d) k = lazyAcc m k) := by
  refine ⟨rfl, ?_, ?_⟩
  · intro k
    show (mapSet m.last_update (f, tg) m.steps) k ≤ m.steps
    by_cases hk : k = (f, tg)
    · simp [mapSet, hk]
    · simpa [mapSet, hk] using h k
  · intro k
    simp only [lazyAcc, PerceptronModel.updateFeature, mapSet]
    by_cases hk : k = (f, tg)
    · simp only [hk, eq_self_iff_true, if_true]
      rw [Nat.sub_self]
      push_cast
      ring
    · simp [hk]

theorem updateList_inv (tt pt : String) :
    ∀ (ps : List (String × ℚ)) (m : PerceptronModel),
      (∀ k, m.last_update k ≤ m.steps) →
      ((ps.foldl (fun m2 p => (m2.updateFeature p.1 tt 1).updateFeature p.1 pt (-1)) m).steps
          = m.steps) ∧
      (∀ k, (ps.foldl (fun m2 p =>
          (m2.updateFeature p.1 tt 1).updateFeature p.1 pt (-1)) m).last_update k ≤
        (ps.foldl (fun m2 p =>
          (m2.updateFeature p.1 tt 1).updateFeature p.1 pt (-1)) m).steps) ∧
      (∀ k, lazyAcc (ps.foldl (fun m2 p =>
          (m2.updateFeature p.1 tt 1).updateFeature p.1 pt (-1)) m) k = lazyAcc m k) := by
  intro ps
  induction ps with
  | nil => intro m h; exact ⟨rfl, h, fun k => rfl⟩
  | cons p rest ih =>
    intro m h
    obtain ⟨h1a, h1b, h1c⟩ := updateFeature_inv m p.1 tt 1 h
    obtain ⟨h2a, h2b, h2c⟩ := updateFeature_inv (m.updateFeature p.1 tt 1) p.1 pt (-1) h1b
    obtain ⟨h3a, h3b, h3c⟩ := ih ((m.updateFeature p.1 tt 1).updateFeature p.1 pt (-1)) h2b
    refine ⟨?_, by simpa using h3b, ?_⟩
    · rw [List.foldl_cons]
      rw [h3a, h2a, h1a]
    · intro k
      rw [List.foldl_cons]
      rw [h3c k, h2c k, h1c k]

theorem update_inv (m : PerceptronModel) (fv : FeatureVector) (tt pt : String)
    (h : ∀ k, m.last_update k ≤ m.steps) :
    (m.update fv tt pt).steps = m.steps ∧
    (∀ k, (m.update fv tt pt).last_update k ≤ (m.update fv tt pt).steps) ∧
    (∀ k, lazyAcc (m.update fv tt pt) k = lazyAcc m k) :=
  updateList_inv tt pt fv.features m h

theorem trainStep_inv (m : PerceptronModel) (x : FeatureVector × String)
    (h : ∀ k, m.last_update k ≤ m.steps) :
    (trainStep m x).steps = m.steps + 1 ∧
    (∀ k, (trainStep m x).last_update k ≤ (trainStep m x).steps) ∧
    (∀ k, lazyAcc (trainStep m x) k = lazyAcc m k + (trainStep m x).weights k) := by
  have hbody : ∀ (m2 : PerceptronModel), m2.steps = m.steps →
      (∀ k, m2.last_update k ≤ m2.steps) → (∀ k, lazyAcc m2 k = lazyAcc m k) →
      ({ m2 with steps := m2.steps + 1 } : PerceptronModel).steps = m.steps + 1 ∧
      (∀ k, ({ m2 with steps := m2.steps + 1 } : PerceptronModel).last_update k ≤
        ({ m2 with steps := m2.steps + 1 } : PerceptronModel).steps) ∧
      (∀ k, lazyAcc ({ m2 with steps := m2.steps + 1 }) k =
        lazyAcc m k + ({ m2 with steps := m2.steps + 1 } : PerceptronModel).weights k) := by
    intro m2 hsteps hle hacc
    refine ⟨by simp [hsteps], ?_, ?_⟩
    · intro k
      exact le_trans (hle k) (Nat.le_succ _)
    · intro k
      show m2.total_weights k + ((m2.steps + 1 - m2.last_update k : ℕ) : ℚ) * m2.weights k =
        lazyAcc m k + m2.weights k
      rw [Nat.succ_sub (hle k)]
      push_cast
      rw [← hacc k, lazyAcc]
      ring
  by_cases hp : m.predictSingle x.1 ≠ x.2
  · obtain ⟨h1a, h1b, h1c⟩ := update_inv m x.1 x.2 (m.predictSingle x.1) h
    have hts : trainStep m x =
        { m.update x.1 x.2 (m.predictSingle x.1) with
          steps := (m.update x.1 x.2 (m.predictSingle x.1)).steps + 1 } := by
      simp only [trainStep]
      rw [if_pos hp]
    rw [hts]
    exact hbody _ h1a h1b h1c
  · have hts : trainStep m x = { m with steps := m.steps + 1 } := by
      simp only [trainStep]
      rw [if_neg hp]
    rw [hts]
    exact hbody m rfl h (fun k => rfl)

theorem trainFold_inv (k : String × String) :
    ∀ (l : List (FeatureVector × String)) (m : PerceptronModel),
      (∀ k2, m.last_update k2 ≤ m.steps) →
      (∀ k2, (l.foldl trainStep m).last_update k2 ≤ (l.foldl trainStep m).steps) ∧
      lazyAcc (l.foldl trainStep m) k = lazyAcc m k + traceSum k m l := by
  intro l
  induction l with
  | nil => intro m h; exact ⟨h, by simp [traceSum]⟩
  | cons x xs ih =>
    intro m h
    obtain ⟨h1a, h1b, h1c⟩ := trainStep_inv m x h
    obtain ⟨h2a, h2b⟩ := ih (trainStep m x) h1b
    refine ⟨by simpa using h2a, ?_⟩
    rw [List.foldl_cons, h2b, h1c k, traceSum]
    ring

theorem nodup_insert_lawful {α : Type} [BEq α] [LawfulBEq α] {l : List α} (a : α)
    (h : l.Nodup) : (l.insert a).Nodup := by
  by_cases hm : a ∈ l
  · rw [List.insert_of_mem hm]
    exact h
  · rw [List.insert_of_not_mem hm]
    exact List.nodup_cons.mpr ⟨hm, h⟩

theorem updateList_keys_nodup (tt pt : String) :
    ∀ (ps : List (String × ℚ)) (m : PerceptronModel), m.weight_keys.Nodup →
      ((ps.foldl (fun m2 p =>
        (m2.updateFeature p.1 tt 1).updateFeature p.1 pt (-1)) m).weight_keys).Nodup := by
  intro ps
  induction ps with
  | nil => intro m h; exact h
  | cons p rest ih =>
    intro m h
    rw [List.foldl_cons]
    refine ih _ ?_
    show (List.insert (p.1, pt) (List.insert (p.1, tt) m.weight_keys)).Nodup
    exact nodup_insert_lawful _ (nodup_insert_lawful _ h)

theorem trainStep_keys_nodup (m : PerceptronModel) (x : FeatureVector × String)
    (h : m.weight_keys.Nodup) : (trainStep m x).weight_keys.Nodup := by
  by_cases hp : m.predictSingle x.1 ≠ x.2
  · have hts : trainStep m x =
        { m.update x.1 x.2 (m.predictSingle x.1) with
          steps := (m.update x.1 x.2 (m.predictSingle x.1)).steps + 1 } := by
      simp only [trainStep]
      rw [if_pos hp]
    rw [hts]
    exact updateList_keys_nodup x.2 (m.predictSingle x.1) x.1.features m h
  · have hts : trainStep m x = { m with steps := m.steps + 1 } := by
      simp only [trainStep]
      rw [if_neg hp]
    rw [hts]
    exact h

theorem trainFold_nodup :
    ∀ (l : List (FeatureVector × String)) (m : PerceptronModel), m.weight_keys.Nodup →
      ((l.foldl trainStep m).weight_keys).Nodup := by
  intro l
  induction l with
  | nil => intro m h; exact h
  | cons x xs ih =>
    intro m h
    rw [List.foldl_cons]
    exact ih _ (trainStep_keys_nodup m x h)

theorem catchupFold_spec :
    ∀ (l : List (String × String)) (acc : PerceptronModel), l.Nodup →
      ((l.foldl (fun acc2 key =>
          { acc2 with total_weights := (mapSet acc2.total_weights key
              (acc2.total_weights key +
                ((acc2.steps - acc2.last_update key : ℕ) : ℚ) * acc2.weights key)) }) acc).weights
          = acc.weights) ∧
      ((l.foldl (fun acc2 key =>
          { acc2 with total_weights := (mapSet acc2.total_weights key
              (acc2.total_weights key +
                ((acc2.steps - acc2.last_update key : ℕ) : ℚ) * acc2.weights key)) }) acc).steps
          = acc.steps) ∧
      ((l.foldl (fun acc2 key =>
          { acc2 with total_weights := (mapSet acc2.total_weights key
              (acc2.total_weights key +
                ((acc2.steps - acc2.last_update key : ℕ) : ℚ) * acc2.weights key)) }) acc).weight_keys
          = acc.weight_keys) ∧
      (∀ k, (l.foldl (fun acc2 key =>
          { acc2 with total_weights := (mapSet acc2.total_weights key
              (acc2.total_weights key +
                ((acc2.steps - acc2.last_update key : ℕ) : ℚ) * acc2.weights key)) }) acc).total_weights k
          = if k ∈ l
            then acc.total_weights k +
              ((acc.steps - acc.last_update k : ℕ) : ℚ) * acc.weights k
            else acc.total_weights k) := by
  intro l
  induction l with
  | nil =>
    intro acc hnd
    exact ⟨rfl, rfl, rfl, fun k => by simp⟩
  | cons key rest ih =>
    intro acc hnd
    have hkey_notin : key ∉ rest := (List.nodup_cons.mp hnd).1
    obtain ⟨ih1, ih2, ih3, ih4⟩ := ih
      ({ acc with total_weights := (mapSet acc.total_weights key
          (acc.total_weights key +
            ((acc.steps - acc.last_update key : ℕ) : ℚ) * acc.weights key)) })
      (List.nodup_cons.mp hnd).2
    rw [List.foldl_cons]
    refine ⟨ih1, ih2, ih3, ?_⟩
    intro k
    rw [ih4 k]
    by_cases hmem : k ∈ rest
    · have hkne : k ≠ key := fun hh => hkey_notin (hh ▸ hmem)
      rw [if_pos hmem, if_pos (List.mem_cons.mpr (Or.inr hmem))]
      show (mapSet acc.total_weights key _) k + _ = _
      rw [mapSet, if_neg hkne]
    · rw [if_neg hmem]
      by_cases hkk : k = key
      · rw [if_pos (List.mem_cons.mpr (Or.inl hkk))]
        show (mapSet acc.total_weights key _) k = _
        rw [mapSet, if_pos hkk, hkk]
      · rw [if_neg (by simp [hkk, hmem])]
        show (mapSet acc.total_weights key _) k = _
        rw [mapSet, if_neg hkk]

theorem finalize_fields (m : PerceptronModel) (hnd : m.weight_keys.Nodup) :
    (finalizeWeights m).steps = m.steps ∧
    (finalizeWeights m).weight_keys = m.weight_keys := by
  obtain ⟨h1, h2, h3, h4⟩ := catchupFold_spec m.weight_keys m hnd
  simp only [finalizeWeights]
  split_ifs with hc
  · exact ⟨h2, h3⟩
  · exact ⟨h2, h3⟩

theorem finalize_weights_eq (m : PerceptronModel) (hnd : m.weight_keys.Nodup)
    (hsteps : 0 < m.steps)
    (k : String × String) (hk : k ∈ m.weight_keys) :
    (finalizeWeights m).weights k = lazyAcc m k / (m.steps : ℚ) := by
  obtain ⟨h1, h2, h3, h4⟩ := catchupFold_spec m.weight_keys m hnd
  simp only [finalizeWeights]
  rw [if_pos (by rw [h2]; exact hsteps)]
  dsimp only
  rw [h3, if_pos hk, h4 k, if_pos hk, h2, lazyAcc]

theorem corpusFold_flatten :
    ∀ (corpus : List (List (FeatureVector × String))) (m : PerceptronModel),
      corpus.foldl (fun m2 s => s.foldl trainStep m2) m =
        corpus.flatten.foldl trainStep m := by
  intro corpus
  induction corpus with
  | nil => intro m; rfl
  | cons s rest ih =>
    intro m
    rw [List.foldl_cons, ih, List.flatten_cons, List.foldl_append]

theorem stepsList_succ (corpus : List (List (FeatureVector × String))) (n : ℕ) :
    stepsList corpus (n + 1) = stepsList corpus n ++ corpus.flatten := by
  simp [stepsList, List.range_succ]

theorem trainIter_flatten (corpus : List (List (FeatureVector × String))) :
    ∀ (iterations : ℕ) (m : PerceptronModel),
      (List.range iterations).foldl
        (fun m2 _ => corpus.foldl (fun m3 s => s.foldl trainStep m3) m2) m =
      (stepsList corpus iterations).foldl trainStep m := by
  intro iterations
  induction iterations with
  | zero => intro m; simp [stepsList]
  | succ n ih =>
    intro m
    rw [List.range_succ, List.foldl_append, ih, stepsList_succ, List.foldl_append]
    simp only [List.foldl_cons, List.foldl_nil]
    exact corpusFold_flatten corpus _

/-- C1: at the end of `PerceptronModel::train` — for any featurized
corpus and iteration count — the final weight stored for every key in
the weight map equals the naive per-step average: the sum, over all
training steps, of the weight the key holds at (the end of) that step,
divided by the total number of steps.  The lazy catch-up in
`update_feature` plus the final catch-up pass in `finalize_weights`
reproduce this exactly. -/
theorem perceptron_lazy_averaging (corpus : List (List (FeatureVector × String)))
    (iterations : ℕ) (k : String × String)
    (hk : k ∈ (perceptronTrain corpus iterations).weight_keys)
    (hsteps : 0 < (perceptronTrain corpus iterations).steps) :
    (perceptronTrain corpus iterations).weights k =
      traceSum k (perceptronInit corpus) (stepsList corpus iterations) /
        ((perceptronTrain corpus iterations).steps : ℚ) := by
  have htr : perceptronTrain corpus iterations =
      finalizeWeights ((stepsList corpus iterations).foldl trainStep
        (perceptronInit corpus)) := by
    rw [perceptronTrain, trainIter_flatten]
  have hinit_le : ∀ k2, (perceptronInit corpus).last_update k2 ≤ (perceptronInit corpus).steps :=
    fun _ => le_refl 0
  obtain ⟨hle, hacc⟩ := trainFold_inv k (stepsList corpus iterations)
    (perceptronInit corpus) hinit_le
  have hnd : ((stepsList corpus iterations).foldl trainStep
      (perceptronInit corpus)).weight_keys.Nodup :=
    trainFold_nodup (stepsList corpus iterations) (perceptronInit corpus) List.nodup_nil
  obtain ⟨hfs, hfk⟩ := finalize_fields _ hnd
  rw [htr] at hk hsteps ⊢
  rw [hfk] at hk
  rw [hfs] at hsteps ⊢
  rw [finalize_weights_eq _ hnd hsteps k hk]
  rw [hacc]
  have hinit0 : lazyAcc (perceptronInit corpus) k = 0 := by
    simp [lazyAcc, perceptronInit]
  rw [hinit0, zero_add]

theorem updateList_steps (tt pt : String) :
    ∀ (ps : List (String × ℚ)) (m : PerceptronModel),
      (ps.foldl (fun m2 p =>
        (m2.updateFeature p.1 tt 1).updateFeature p.1 pt (-1)) m).steps = m.steps := by
  intro ps
  induction ps with
  | nil => intro m; rfl
  | cons p rest ih => intro m; rw [List.foldl_cons, ih]; rfl

theorem trainStep_steps (m : PerceptronModel) (x : FeatureVector × String) :
    (trainStep m x).steps = m.steps + 1 := by
  by_cases hp : m.predictSingle x.1 ≠ x.2
  · show (if m.predictSingle x.1 ≠ x.2 then _ else _ : PerceptronModel).steps + 1 = _
    rw [if_pos hp]
    rw [show (m.update x.1 x.2 (m.predictSingle x.1)).steps = m.steps from
      updateList_steps x.2 (m.predictSingle x.1) x.1.features m]
  · show (if m.predictSingle x.1 ≠ x.2 then _ else _ : PerceptronModel).steps + 1 = _
    rw [if_neg hp]

theorem trainFold_steps :
    ∀ (l : List (FeatureVector × String)) (m : PerceptronModel),
      (l.foldl trainStep m).steps = m.steps + l.length := by
  intro l
  induction l with
  | nil => intro m; simp
  | cons x xs ih =>
    intro m
    rw [List.foldl_cons, ih, trainStep_steps]
    simp
    ring

theorem perceptronTrain_steps (corpus : List (List (FeatureVector × String)))
    (iterations : ℕ) :
    (perceptronTrain corpus iterations).steps = (stepsList corpus iterations).length := by
  have hnd : ((stepsList corpus iterations).foldl trainStep
      (perceptronInit corpus)).weight_keys.Nodup :=
    trainFold_nodup (stepsList corpus iterations) (perceptronInit corpus) List.nodup_nil
  rw [perceptronTrain, trainIter_flatten, (finalize_fields _ hnd).1, trainFold_steps]
  simp [perceptronInit]

theorem updateList_keys_mono (tt pt : String) (k : String × String) :
    ∀ (ps : List (String × ℚ)) (m : PerceptronModel), k ∈ m.weight_keys →
      k ∈ (ps.foldl (fun m2 p =>
        (m2.updateFeature p.1 tt 1).updateFeature p.1 pt (-1)) m).weight_keys := by
  intro ps
  induction ps with
  | nil => intro m h; exact h
  | cons p rest ih =>
    intro m h
    rw [List.foldl_cons]
    refine ih _ ?_
    show k ∈ List.insert (p.1, pt) (List.insert (p.1, tt) m.weight_keys)
    exact List.mem_insert_of_mem (List.mem_insert_of_mem h)

theorem trainStep_keys_mono (m : PerceptronModel) (x : FeatureVector × String)
    (k : String × String) (h : k ∈ m.weight_keys) : k ∈ (trainStep m x).weight_keys := by
  by_cases hp : m.predictSingle x.1 ≠ x.2
  · show k ∈ (if m.predictSingle x.1 ≠ x.2 then _ else _ : PerceptronModel).weight_keys
    rw [if_pos hp]
    exact updateList_keys_mono x.2 (m.predictSingle x.1) k x.1.features m h
  · show k ∈ (if m.predictSingle x.1 ≠ x.2 then _ else _ : PerceptronModel).weight_keys
    rw [if_neg hp]
    exact h

theorem trainFold_keys_mono (k : String × String) :
    ∀ (l : List (FeatureVector × String)) (m : PerceptronModel), k ∈ m.weight_keys →
      k ∈ (l.foldl trainStep m).weight_keys := by
  intro l
  induction l with
  | nil => intro m h; exact h
  | cons x xs ih =>
    intro m h
    rw [List.foldl_cons]
    exact ih _ (trainStep_keys_mono m x k h)

theorem perceptron_tags_eval :
    sortStrings ((([[(⟨[("f", 1)], 0⟩, "O"), (⟨[("g", 1)], 1⟩, "B-PER")]] :
        List (List (FeatureVector × String))).flatten.map (·.2)).dedup) = ["B-PER", "O"] := by
  decide

theorem perceptron_pred_eval :
    (perceptronInit [[(⟨[("f", 1)], 0⟩, "O"), (⟨[("g", 1)], 1⟩, "B-PER")]]).predictSingle
      ⟨[("f", 1)], 0⟩ = "B-PER" := by
  simp only [PerceptronModel.predictSingle, PerceptronModel.scoreTag, perceptronInit]
  rw [perceptron_tags_eval]
  have h0 : (⊥ : WithBot ℚ) < 0 := by
    rw [show ((0 : WithBot ℚ)) = ((0 : ℚ) : WithBot ℚ) from rfl]
    exact WithBot.bot_lt_coe 0
  simp [h0]

theorem perceptron_key_after_step1 :
    ("f", "O") ∈ (trainStep (perceptronInit
        [[(⟨[("f", 1)], 0⟩, "O"), (⟨[("g", 1)], 1⟩, "B-PER")]])
      (⟨[("f", 1)], 0⟩, "O")).weight_keys := by
  show ("f", "O") ∈ (if (perceptronInit
      [[(⟨[("f", 1)], 0⟩, "O"), (⟨[("g", 1)], 1⟩, "B-PER")]]).predictSingle ⟨[("f", 1)], 0⟩ ≠ "O"
    then _ else _ : PerceptronModel).weight_keys
  rw [if_pos (by rw [perceptron_pred_eval]; decide)]
  rw [perceptron_pred_eval]
  simp [PerceptronModel.update, PerceptronModel.updateFeature, perceptronInit, List.insert]

/-- C1 witness: the theorem applied to a concrete two-token corpus (one
run, one mistake-driven update on the first token). -/
theorem perceptron_lazy_averaging_witness :
    (("f", "O") ∈ (perceptronTrain
        [[(⟨[("f", 1)], 0⟩, "O"), (⟨[("g", 1)], 1⟩, "B-PER")]] 1).weight_keys ∧
      0 < (perceptronTrain
        [[(⟨[("f", 1)], 0⟩, "O"), (⟨[("g", 1)], 1⟩, "B-PER")]] 1).steps) ∧
    (perceptronTrain [[(⟨[("f", 1)], 0⟩, "O"), (⟨[("g", 1)], 1⟩, "B-PER")]] 1).weights
        ("f", "O") =
      traceSum ("f", "O")
        (perceptronInit [[(⟨[("f", 1)], 0⟩, "O"), (⟨[("g", 1)], 1⟩, "B-PER")]])
        (stepsList [[(⟨[("f", 1)], 0⟩, "O"), (⟨[("g", 1)], 1⟩, "B-PER")]] 1) /
        ((perceptronTrain [[(⟨[("f", 1)], 0⟩, "O"), (⟨[("g", 1)], 1⟩, "B-PER")]] 1).steps : ℚ) := by
  have hnd := trainFold_nodup
    (stepsList [[(⟨[("f", 1)], 0⟩, "O"), (⟨[("g", 1)], 1⟩, "B-PER")]] 1)
    (perceptronInit [[(⟨[("f", 1)], 0⟩, "O"), (⟨[("g", 1)], 1⟩, "B-PER")]]) List.nodup_nil
  have hk : ("f", "O") ∈ (perceptronTrain
      [[(⟨[("f", 1)], 0⟩, "O"), (⟨[("g", 1)], 1⟩, "B-PER")]] 1).weight_keys := by
    rw [perceptronTrain, trainIter_flatten, (finalize_fields _ hnd).2]
    have hsl : stepsList [[(⟨[("f", 1)], 0⟩, "O"), (⟨[("g", 1)], 1⟩, "B-PER")]] 1 =
        (⟨[("f", 1)], 0⟩, "O") :: [(⟨[("g", 1)], 1⟩, "B-PER")] := rfl
    rw [hsl, List.foldl_cons]
    exact trainFold_keys_mono _ _ _ perceptron_key_after_step1
  have hs : 0 < (perceptronTrain
      [[(⟨[("f", 1)], 0⟩, "O"), (⟨[("g", 1)], 1⟩, "B-PER")]] 1).steps := by
    rw [perceptronTrain_steps]
    decide
  exact ⟨⟨hk, hs⟩,
    perceptron_lazy_averaging [[(⟨[("f", 1)], 0⟩, "O"), (⟨[("g", 1)], 1⟩, "B-PER")]] 1
      ("f", "O") hk hs⟩


end Ner
